import Mathlib

/-!
Verification of the CosmicAnimator narration and subtitle core.

This file gives a shallow embedding, in Lean 4, of the pure algorithmic heart
of the CosmicAnimator repository:

* the step-duration allocator emitted by the scene generator
  (function `_alloc` in `application/generator.py` and `work/generated_scene.py`);
* the subtitle policy (`application/narration/policy.py`):
  chunking (`chunk`, `_autosplit_chunk`, `_balanced_break`,
  `_wrapped_line_count`, `_merge_tiny_tail`) and duration fitting
  (`durations`);
* the subtitle overlay state machine (`application/narration/subtitle.py`):
  `schedule_chunks`, `clear_schedule`, `stop` and the per-tick `_update`;
* the narration orchestrator (`application/narration/orchestra.py`):
  the event trace produced by `Orchestra.say` together with its text helpers.

Python strings are modelled as `List Char`, Python floats as `ℚ` (exact real
arithmetic), Python exceptions as an explicit error component.  All
definitions are computable and follow the Python sources statement by
statement; theorems at the end of the file settle the specification claims.
-/

set_option maxHeartbeats 1000000

namespace Cosmic

/-! ## Basic Python-string utilities (str.split, str.strip, " ".join) -/

/-- Whitespace test matching the Python `str.split` / `str.strip` notion of
whitespace for the ASCII range. -/
def isWS (c : Char) : Bool :=
  c == ' ' || c == '\t' || c == '\n' || c == '\r' || c == '\x0b' || c == '\x0c'

/-- Worker for Python `str.split()`: `curr` holds the characters of the word
currently being read, in reverse order. -/
def pySplitAux : List Char → List Char → List (List Char)
  | curr, [] => if curr = [] then [] else [curr.reverse]
  | curr, c :: t =>
    if isWS c then
      if curr = [] then pySplitAux [] t else curr.reverse :: pySplitAux [] t
    else
      pySplitAux (c :: curr) t

/-- Python `s.split()`: the maximal whitespace-free nonempty words of `s`. -/
def pySplit (l : List Char) : List (List Char) := pySplitAux [] l

/-- Python `" ".join(ps)`. -/
def joinSp : List (List Char) → List Char
  | [] => []
  | [p] => p
  | p :: ps => p ++ ' ' :: joinSp ps

/-- Python `" ".join(s.split())`: collapse whitespace runs and trim. -/
def normalize (l : List Char) : List Char := joinSp (pySplit l)

/-- Python `s.lstrip()`. -/
def pyLstrip (l : List Char) : List Char := l.dropWhile isWS

/-- Python `s.rstrip()`. -/
def pyRstrip (l : List Char) : List Char := (l.reverse.dropWhile isWS).reverse

/-- Python `s.strip()`. -/
def pyStrip (l : List Char) : List Char := pyRstrip (pyLstrip l)

/-! ## Step-duration allocator

Embedding of the helper emitted by `application/generator.py` into every
generated scene (and present verbatim in `work/generated_scene.py`):

```
def _alloc(total, parts):
    parts = max(1, parts)
    raw = max(0.12, total/parts)   # clamp so nothing is too tiny
    scale = total / (raw*parts) if raw*parts > 0 else 1.0
    return [raw*scale]*parts
```
-/

/-- The generated-scene duration allocator `_alloc`. -/
def alloc (total : ℚ) (parts : ℤ) : List ℚ :=
  let parts : ℤ := max 1 parts
  let raw : ℚ := max (12 / 100) (total / (parts : ℚ))
  let scale : ℚ := if 0 < raw * (parts : ℚ) then total / (raw * (parts : ℚ)) else 1
  List.replicate parts.toNat (raw * scale)

/-! ## Subtitle policy: configuration

`SubtitlePolicy.__init__` clamps its parameters:
`wrap_chars = max(1, wrap_chars)`, `max_lines = max(1, max_lines)`,
`chars_per_sec = max(1e-6, chars_per_sec)`, `min_duration = max(0.0, ...)`,
`max_duration = max(min_duration, ...)`.  The structure below records the
clamped fields together with the invariants the clamping guarantees, and
`mkPolicy` embeds the constructor itself. -/

structure SubtitlePolicy where
  wrap_chars : ℕ
  max_lines : ℕ
  chars_per_sec : ℚ
  min_duration : ℚ
  max_duration : ℚ
  wrap_chars_pos : 0 < wrap_chars
  max_lines_pos : 0 < max_lines
  chars_per_sec_pos : 0 < chars_per_sec
  min_duration_nonneg : 0 ≤ min_duration
  min_le_max : min_duration ≤ max_duration

/-- The `SubtitlePolicy.__init__` clamping, from raw parameter values. -/
def mkPolicy (wrap_chars max_lines : ℤ) (cps min_d max_d : ℚ) : SubtitlePolicy where
  wrap_chars := (max 1 wrap_chars).toNat
  max_lines := (max 1 max_lines).toNat
  chars_per_sec := max (1 / 1000000) cps
  min_duration := max 0 min_d
  max_duration := max (max 0 min_d) max_d
  wrap_chars_pos := by omega
  max_lines_pos := by omega
  chars_per_sec_pos := lt_max_of_lt_left (by norm_num)
  min_duration_nonneg := le_max_left 0 min_d
  min_le_max := le_max_left _ _

/-- The default policy `SubtitlePolicy()`:
`wrap_chars=38, max_lines=2, chars_per_sec=16.0, min_duration=1.2,
max_duration=3.8`. -/
def defaultPolicy : SubtitlePolicy := mkPolicy 38 2 16 (12 / 10) (38 / 10)

/-! ## Subtitle policy: durations

Embedding of `SubtitlePolicy.durations(chunks, total_duration)`. -/

/-- The per-chunk weight length `max(1, len(c.replace("\n", " ")))`; replacing
the one-character pattern by a one-character replacement is the character map
below. -/
def chunkLen (c : List Char) : ℕ :=
  max 1 (c.map (fun ch => if ch = '\n' then ' ' else ch)).length

/-- `SubtitlePolicy.durations`: fit per-chunk durations to a known total, or
estimate them from reading speed when no total is available. -/
def durations (p : SubtitlePolicy) (chunks : List (List Char)) (total_duration : ℚ) :
    List ℚ :=
  if chunks = [] then []
  else
    let lengths : List ℚ := chunks.map (fun c => (chunkLen c : ℚ))
    let d :=
      if 0 < total_duration then
        let weights := lengths.map (fun L => L / lengths.sum)
        weights.map (fun w => total_duration * w)
      else
        lengths.map (fun L => L / p.chars_per_sec)
    let d := d.map (fun x => min p.max_duration x)
    if 0 < total_duration then
      let min_readable := min (6 / 10) p.min_duration
      let d := d.map (fun x => max min_readable x)
      let s := d.sum
      let d :=
        if 1 / 1000000 < s then
          let scale := total_duration / s
          d.map (fun x => x * scale)
        else
          let per := total_duration / (chunks.length : ℚ)
          d.map (fun _ => per)
      let d := d.map (fun x => min p.max_duration x)
      let s := d.sum
      if 1 / 1000000 < s ∧ 1 / 1000 < |s - total_duration| then
        let k := total_duration / s
        d.map (fun x => x * k)
      else d
    else
      d.map (fun x => max p.min_duration (min p.max_duration x))

/-! ## Subtitle policy: chunking

Embedding of `SubtitlePolicy.chunk` and its helpers `_wrapped_line_count`,
`_balanced_break`, `_autosplit_chunk`, `_merge_tiny_tail`, together with the
sentence splitter `re.split(r'(?<=[.!?])\s+', text)`. -/

/-- Loop of `_wrapped_line_count`: `lines` lines so far, `cur` is the length
of the line currently being filled. -/
def wlcGo (width : ℕ) : ℕ → ℕ → List (List Char) → ℕ
  | lines, _, [] => lines
  | lines, cur, w :: ws =>
    if cur + 1 + w.length ≤ width then wlcGo width lines (cur + 1 + w.length) ws
    else wlcGo width (lines + 1) w.length ws

/-- `SubtitlePolicy._wrapped_line_count(s, width)`: the greedy word-wrap line
counter. -/
def wrappedLineCount (s : List Char) (width : ℕ) : ℕ :=
  if width = 0 then (if s = [] then 0 else 1)
  else
    match pySplit s with
    | [] => 0
    | w :: ws => wlcGo width 1 w.length ws

/-- `abs(i - target)` over Python ints, for the `pick` key function. -/
def natDist (a b : ℕ) : ℕ := ((a : ℤ) - (b : ℤ)).natAbs

/-- `pick = lambda arr: min(arr, key=lambda i: abs(i - target)) if arr else
None`; Python `min` returns the first element attaining the minimal key. -/
def pick (target : ℕ) (arr : List ℕ) : Option ℕ :=
  arr.foldl (fun acc i =>
    match acc with
    | none => some i
    | some j => if natDist i target < natDist j target then some i else acc) none

/-- Python `a or b` on `Optional[int]` values: `None` and `0` are falsy. -/
def pyOr (a b : Option ℕ) : Option ℕ :=
  match a with
  | none => b
  | some i => if i = 0 then b else some i

/-- Python `a or dflt` when the result is used as an int. -/
def pyOrNat (a : Option ℕ) (dflt : ℕ) : ℕ :=
  match a with
  | none => dflt
  | some i => if i = 0 then dflt else i

/-- The sentence-internal break characters `".!?;:,"`. -/
def punctChars : List Char := ['.', '!', '?', ';', ':', ',']

/-- `SubtitlePolicy._balanced_break(s, target)`: find a break point near
`target`, preferring punctuation followed by a space, then a nearby space,
then any space, then a hard cut at `target`. -/
def balancedBreak (s0 : List Char) (target : ℕ) : List Char × List Char :=
  let s := pyStrip s0
  let n := s.length
  if n ≤ 1 then (s, [])
  else
    let window := max 12 (n / 6)
    let lo := max 1 (target - window)
    let hi := min (n - 1) (target + window)
    let punct := (List.range' lo (hi - lo)).filter
      (fun i => decide (s.getD i 'x' ∈ punctChars) && decide (i + 1 < n) &&
        (s.getD (i + 1) 'x' == ' '))
    let spaces := (List.range' lo (hi - lo)).filter (fun i => s.getD i 'x' == ' ')
    let idx :=
      match pyOr (pick target punct) (pick target spaces) with
      | some i => i
      | none =>
        let all_spaces := (List.range n).filter (fun i => s.getD i 'x' == ' ')
        pyOrNat (pick target all_spaces) target
    let left := pyRstrip (s.take (idx + 1))
    let right := pyLstrip (s.drop (idx + 1))
    (left, right)

/-- Whether the last character read (head of the reversed accumulator) is a
sentence terminator `[.!?]`, i.e. whether the regex lookbehind matches. -/
def sentBoundary : List Char → Bool
  | [] => false
  | p :: _ => p == '.' || p == '!' || p == '?'

/-- Scanner for `re.split(r'(?<=[.!?])\s+', text)`.  `acc` holds the current
part reversed; in skip mode the matched whitespace run is being consumed
greedily.  The final `[acc.reverse]` is the remainder after the last match
(the empty trailing part `re.split` produces when the text ends inside a
match). -/
def sentSplitAux : Bool → List Char → List Char → List (List Char)
  | _, acc, [] => [acc.reverse]
  | true, acc, c :: t =>
    if isWS c then sentSplitAux true acc t
    else sentSplitAux false [c] t
  | false, acc, c :: t =>
    if isWS c && sentBoundary acc then acc.reverse :: sentSplitAux true [] t
    else sentSplitAux false (c :: acc) t

/-- `re.split(r'(?<=[.!?])\s+', text)`: split on whitespace runs preceded by a
sentence terminator, consuming the whitespace. -/
def sentSplitRe (l : List Char) : List (List Char) := sentSplitAux false [] l

/-- `SubtitlePolicy._merge_tiny_tail(chunks, width, max_lines)`. -/
def mergeTinyTail (chunks : List (List Char)) (width maxLines : ℕ) :
    List (List Char) :=
  if chunks.length < 2 then chunks
  else
    match chunks.reverse with
    | tail :: prev :: restRev =>
      if tail.length ≤ max 6 (width / 2) then
        let merged := pyStrip (prev ++ ' ' :: tail)
        if wrappedLineCount merged width ≤ maxLines then (merged :: restRev).reverse
        else chunks
      else chunks
    | _ => chunks

/-! ## Subtitle overlay (`application/narration/subtitle.py`)

The overlay is a Manim `VGroup`; we model exactly its observable mutable
state: the current index, the held `_Schedule`, whether the per-frame updater
is registered, the caption node content (`none` models the empty `VGroup`
after `become(VGroup())`, `some s` models a rendered caption with text `s`),
and whether the overlay has been added to the scene.  Raised exceptions are
modelled by returning the (unchanged) state together with an error tag, since
the Python code raises before any mutation. -/

/-- The internal `_Schedule` dataclass. -/
structure Schedule where
  chunks : List (List Char)
  cum : List ℚ
  start_time : ℚ
  deriving DecidableEq

/-- Timing configuration of `SubtitleOverlay.__init__` (the styling fields do
not influence scheduling or ticking and are not modelled). -/
structure OverlayCfg where
  chars_per_sec : ℚ
  min_duration : ℚ
  max_duration : ℚ
  chars_per_sec_pos : 0 < chars_per_sec
  min_duration_nonneg : 0 ≤ min_duration
  min_le_max : min_duration ≤ max_duration

/-- The `SubtitleOverlay.__init__` clamping of the timing parameters. -/
def mkOverlayCfg (cps min_d max_d : ℚ) : OverlayCfg where
  chars_per_sec := max (1 / 1000000) cps
  min_duration := max 0 min_d
  max_duration := max (max 0 min_d) max_d
  chars_per_sec_pos := lt_max_of_lt_left (by norm_num)
  min_duration_nonneg := le_max_left 0 min_d
  min_le_max := le_max_left _ _

/-- The defaults `chars_per_sec=16.0, min_duration=1.2, max_duration=3.8`. -/
def defaultOverlayCfg : OverlayCfg := mkOverlayCfg 16 (12 / 10) (38 / 10)

/-- Observable state of a `SubtitleOverlay`. -/
structure OverlayState where
  current_idx : ℤ
  schedule : Option Schedule
  has_updater : Bool
  caption : Option (List Char)
  in_scene : Bool
  deriving DecidableEq

/-- The state fixed by `SubtitleOverlay.__init__`. -/
def initOverlayState : OverlayState where
  current_idx := -1
  schedule := none
  has_updater := false
  caption := none
  in_scene := false

/-- Errors raised by the overlay: the two `ValueError`s of `schedule_chunks`
and the `IndexError` a malformed schedule would raise inside `_update`. -/
inductive OverlayErr where
  | lengthMismatch
  | negativeDuration
  | indexError
  deriving DecidableEq

/-- `SubtitleOverlay.clear_schedule`. -/
def clear_schedule (st : OverlayState) : OverlayState :=
  { st with schedule := none, current_idx := -1, caption := none }

/-- `SubtitleOverlay.stop`. -/
def stop (st : OverlayState) : OverlayState :=
  let st := clear_schedule st
  if st.has_updater then { st with has_updater := false } else st

/-- `SubtitleOverlay._clamped_duration`. -/
def clamped_duration (cfg : OverlayCfg) (seconds : ℚ) : ℚ :=
  max cfg.min_duration (min cfg.max_duration seconds)

/-- The cumulative-boundary loop of `schedule_chunks`:
`cum = [0.0]; for d in norm_durations: cum.append(cum[-1] + d)`. -/
def cumFrom (acc : ℚ) : List ℚ → List ℚ
  | [] => []
  | d :: t => (acc + d) :: cumFrom (acc + d) t

/-- `cum` as built by `schedule_chunks`. -/
def buildCum (ds : List ℚ) : List ℚ := 0 :: cumFrom 0 ds

/-- `SubtitleOverlay.schedule_chunks`.  The second component records a raised
`ValueError`; in that case the first component is the untouched prior state,
mirroring that the Python code validates before mutating anything. -/
def schedule_chunks (cfg : OverlayCfg) (st : OverlayState)
    (chunks : List (List Char)) (durationsIn : List ℚ)
    (start_time offset pace lead : ℚ) : OverlayState × Option OverlayErr :=
  if chunks = [] then (clear_schedule st, none)
  else if chunks.length ≠ durationsIn.length then (st, some .lengthMismatch)
  else if durationsIn.any (fun d => d < 0) then (st, some .negativeDuration)
  else
    let durs := durationsIn.map (fun d => max d (1 / 1000) * pace)
    let start := start_time - lead
    let norm := (chunks.zip durs).filterMap (fun td =>
      let text := normalize td.1
      if text = [] then none
      else some (text, clamped_duration cfg
        (if 0 < td.2 then td.2 else (text.length : ℚ) / cfg.chars_per_sec)))
    let norm_chunks := norm.map Prod.fst
    let norm_durations := norm.map Prod.snd
    let cum := buildCum norm_durations
    ({ st with
        schedule := some { chunks := norm_chunks, cum := cum,
                           start_time := start + offset },
        in_scene := true,
        has_updater := true }, none)

/-- The linear scan of `_update`:
`idx = -1; for i in range(len(chunks)): if cum[i] <= t < cum[i+1]: idx = i;
break`, with `none` marking the `IndexError` an out-of-range access would
raise.  The first argument counts the remaining iterations. -/
def findIdxGo (cum : List ℚ) (t : ℚ) : ℕ → ℕ → Option ℤ
  | 0, _ => some (-1)
  | k + 1, i =>
    match cum.get? i with
    | none => none
    | some a =>
      if a ≤ t then
        match cum.get? (i + 1) with
        | none => none
        | some b => if t < b then some (i : ℤ) else findIdxGo cum t k (i + 1)
      else findIdxGo cum t k (i + 1)

/-- `SubtitleOverlay._update`, the per-tick handler, at scene clock `now`. -/
def update (st : OverlayState) (now : ℚ) : OverlayState × Option OverlayErr :=
  match st.schedule with
  | none => (st, none)
  | some sch =>
    let t := now - sch.start_time
    if t < 0 then (st, none)
    else
      match sch.cum.getLast? with
      | none => (st, some .indexError)
      | some last =>
        if last ≤ t then (stop st, none)
        else
          match findIdxGo sch.cum t sch.chunks.length 0 with
          | none => (st, some .indexError)
          | some idx =>
            if idx ≠ st.current_idx then
              let st' := { st with current_idx := idx }
              if 0 ≤ idx ∧ idx < (sch.chunks.length : ℤ) then
                ({ st' with caption := some (sch.chunks.getD idx.toNat []) }, none)
              else (st', none)
            else (st, none)

/-! ## Rational list helper lemmas -/

theorem sum_map_mul_right' (l : List ℚ) (c : ℚ) :
    (l.map (fun x => x * c)).sum = l.sum * c := by
  induction l with
  | nil => simp
  | cons x t ih => simp [ih, add_mul]

theorem le_sum_of_forall_le' (l : List ℚ) (a : ℚ) (ha : 0 ≤ a)
    (h : ∀ x ∈ l, a ≤ x) (hne : l ≠ []) : a ≤ l.sum := by
  induction l with
  | nil => exact absurd rfl hne
  | cons x t ih =>
    rcases t with _ | ⟨y, t⟩
    · simpa using h x (by simp)
    · have hx : a ≤ x := h x (by simp)
      have ht : a ≤ (y :: t).sum := ih (fun z hz => h z (by simp [hz])) (by simp)
      calc a = 0 + a := by ring
        _ ≤ x + (y :: t).sum := add_le_add (le_trans ha hx) ht
        _ = (x :: y :: t).sum := by simp

theorem single_le_sum' (l : List ℚ) (x : ℚ) (hx : x ∈ l)
    (h : ∀ y ∈ l, 0 ≤ y) : x ≤ l.sum := by
  induction l with
  | nil => simp at hx
  | cons z t ih =>
    rcases List.mem_cons.1 hx with rfl | hxt
    · have : 0 ≤ t.sum := List.sum_nonneg (fun y hy => h y (by simp [hy]))
      simpa using this
    · have hz : 0 ≤ z := h z (by simp)
      have := ih hxt (fun y hy => h y (by simp [hy]))
      calc x ≤ t.sum := this
        _ ≤ z + t.sum := by linarith
        _ = (z :: t).sum := by simp

theorem sum_map_min_le' (l : List ℚ) (c : ℚ) :
    (l.map (fun x => min c x)).sum ≤ l.sum := by
  induction l with
  | nil => simp
  | cons x t ih =>
    simp only [List.map_cons, List.sum_cons]
    exact add_le_add (min_le_right c x) ih

/-- Renormalising a list whose entries are at least `3/5` and then re-capping
cannot make the sum drop below `1/2`, when the target total is at least `1/2`
and the cap is at least `3/5`.  This is the key step of the duration-sum
fidelity argument: either no entry is capped (the sum is exactly the total) or
at least one capped entry alone contributes the cap value. -/
theorem durations_recap_sum_lower (total maxd : ℚ) (d2 : List ℚ) (hne : d2 ≠ [])
    (hlow : ∀ x ∈ d2, 3 / 5 ≤ x) (htot : 1 / 2 ≤ total) (hmaxd : 3 / 5 ≤ maxd) :
    1 / 2 ≤ ((d2.map (fun x => x * (total / d2.sum))).map (fun x => min maxd x)).sum := by
  have htotpos : (0 : ℚ) < total := by linarith
  have hs1 : (3 / 5 : ℚ) ≤ d2.sum := le_sum_of_forall_le' d2 (3 / 5) (by norm_num) hlow hne
  have hs1pos : (0 : ℚ) < d2.sum := by linarith
  have hs1ne : d2.sum ≠ 0 := ne_of_gt hs1pos
  have hd3sum : (d2.map (fun x => x * (total / d2.sum))).sum = total := by
    rw [sum_map_mul_right']
    field_simp
  have hd3pos : ∀ x ∈ d2.map (fun x => x * (total / d2.sum)), 0 < x := by
    intro x hx
    obtain ⟨y, hy, rfl⟩ := List.mem_map.1 hx
    have := hlow y hy
    exact mul_pos (by linarith) (div_pos htotpos hs1pos)
  by_cases hcap : ∀ x ∈ d2.map (fun x => x * (total / d2.sum)), x ≤ maxd
  · have heq : (d2.map (fun x => x * (total / d2.sum))).map (fun x => min maxd x)
        = d2.map (fun x => x * (total / d2.sum)) := by
      rw [List.map_congr_left (fun x hx => min_eq_right (hcap x hx))]
      exact List.map_id _
    rw [heq, hd3sum]; linarith
  · push_neg at hcap
    obtain ⟨x, hxmem, hxgt⟩ := hcap
    have hmem : min maxd x ∈ (d2.map (fun x => x * (total / d2.sum))).map
        (fun x => min maxd x) := List.mem_map_of_mem _ hxmem
    rw [min_eq_left (le_of_lt hxgt)] at hmem
    have hnn : ∀ y ∈ (d2.map (fun x => x * (total / d2.sum))).map (fun x => min maxd x),
        0 ≤ y := by
      intro y hy
      obtain ⟨z, hz, rfl⟩ := List.mem_map.1 hy
      exact le_min (by linarith) (le_of_lt (hd3pos z hz))
    have := single_le_sum' _ maxd hmem hnn
    linarith

/-- The last conditional rescale of `durations` leaves the sum within `1/100`
of the total whenever the incoming sum is at least `1/2`. -/
theorem durations_final_stage (total : ℚ) (d4 : List ℚ) (hs2 : 1 / 2 ≤ d4.sum)
    (htot : 1 / 2 ≤ total) :
    |(if 1 / 1000000 < d4.sum ∧ 1 / 1000 < |d4.sum - total| then
        d4.map (fun x => x * (total / d4.sum))
      else d4).sum - total| ≤ 1 / 100 := by
  have hne : d4.sum ≠ 0 := by intro h; rw [h] at hs2; norm_num at hs2
  split_ifs with h
  · rw [sum_map_mul_right']
    have : d4.sum * (total / d4.sum) = total := by field_simp
    rw [this]
    simp
  · push_neg at h
    have := h (by linarith)
    have h2 := abs_le.1 this
    rw [abs_le]
    constructor <;> linarith [h2.1, h2.2]

/-! ### Chunking: word structure, balanced break, autosplit and chunk -/

theorem pySplit_ws_cons (c : Char) (t : List Char) (hc : isWS c = true) :
    pySplit (c :: t) = pySplit t := by
  simp [pySplit, pySplitAux, hc]

theorem pySplitAux_word (l : List Char) :
    ∀ curr : List Char, curr ≠ [] →
      pySplitAux curr l =
        (curr.reverse ++ l.takeWhile (fun c => !isWS c)) ::
          pySplit (l.dropWhile (fun c => !isWS c)) := by
  induction l with
  | nil =>
    intro curr h
    simp [pySplitAux, h, pySplit, pySplitAux]
  | cons c t ih =>
    intro curr h
    by_cases hc : isWS c
    · rw [List.takeWhile_cons, List.dropWhile_cons]
      simp [pySplitAux, hc, h, pySplit_ws_cons c t hc]
      rfl
    · have hc' : isWS c = false := by simpa using hc
      rw [List.takeWhile_cons, List.dropWhile_cons]
      simp only [hc', Bool.not_false, if_pos rfl, pySplitAux, Bool.false_eq_true, if_false]
      rw [ih (c :: curr) (by simp)]
      simp

theorem isWS_space : isWS ' ' = true := rfl

theorem pySplit_cons_not_ws (c : Char) (t : List Char) (hc : isWS c = false) :
    pySplit (c :: t) =
      (c :: t.takeWhile (fun x => !isWS x)) ::
        pySplit (t.dropWhile (fun x => !isWS x)) := by
  rw [pySplit]
  simp only [pySplitAux, hc, Bool.false_eq_true, if_false]
  rw [pySplitAux_word t [c] (by simp)]
  simp

theorem pySplitAux_append_space (y : List Char) :
    ∀ (x curr : List Char),
      pySplitAux curr (x ++ ' ' :: y) = pySplitAux curr x ++ pySplit y := by
  intro x
  induction x with
  | nil =>
    intro curr
    by_cases h : curr = []
    · simp [pySplitAux, h, pySplit, isWS_space]
    · simp [pySplitAux, h, pySplit, isWS_space]
  | cons c x ih =>
    intro curr
    by_cases hc : isWS c
    · by_cases h : curr = []
      · simp [pySplitAux, hc, h, ih]
      · simp [pySplitAux, hc, h, ih]
    · simp [pySplitAux, hc, ih]

theorem pySplit_append_space (x y : List Char) :
    pySplit (x ++ ' ' :: y) = pySplit x ++ pySplit y :=
  pySplitAux_append_space y x []

/-- A word as produced by `str.split()`: nonempty and whitespace-free. -/
def CleanWord (w : List Char) : Prop := w ≠ [] ∧ ∀ c ∈ w, isWS c = false

/-- All members are clean words. -/
def CleanWords (ws : List (List Char)) : Prop := ∀ w ∈ ws, CleanWord w

theorem pySplitAux_all_not_ws (w : List Char) :
    ∀ curr : List Char, (∀ c ∈ w, isWS c = false) →
      pySplitAux curr w =
        if curr.reverse ++ w = [] then [] else [curr.reverse ++ w] := by
  induction w with
  | nil => intro curr h; simp [pySplitAux]
  | cons c w ih =>
    intro curr h
    have hc : isWS c = false := h c (by simp)
    simp only [pySplitAux, hc, Bool.false_eq_true, if_false]
    rw [ih (c :: curr) (fun d hd => h d (by simp [hd]))]
    simp

theorem pySplit_clean_word (w : List Char) (h : CleanWord w) : pySplit w = [w] := by
  rw [pySplit, pySplitAux_all_not_ws w [] h.2]
  simp [h.1]

theorem pySplitAux_clean (l : List Char) :
    ∀ curr : List Char, (∀ c ∈ curr, isWS c = false) →
      CleanWords (pySplitAux curr l) := by
  induction l with
  | nil =>
    intro curr hcurr w hw
    by_cases h : curr = []
    · simp [pySplitAux, h] at hw
    · simp [pySplitAux, h] at hw
      subst hw
      exact ⟨by simp [h], fun c hc => hcurr c (by simpa using hc)⟩
  | cons c t ih =>
    intro curr hcurr w hw
    by_cases hc : isWS c
    · by_cases h : curr = []
      · rw [pySplitAux, if_pos hc] at hw
        simp only [h, if_pos rfl] at hw
        exact ih [] (by simp) w hw
      · rw [pySplitAux, if_pos hc, if_neg h] at hw
        rcases List.mem_cons.1 hw with rfl | hw2
        · exact ⟨by simp [h], fun d hd => hcurr d (by simpa using hd)⟩
        · exact ih [] (by simp) w hw2
    · have hc' : isWS c = false := by simpa using hc
      rw [pySplitAux, if_neg (by simp [hc'])] at hw
      refine ih (c :: curr) ?_ w hw
      intro d hd
      rcases List.mem_cons.1 hd with rfl | hd2
      · exact hc'
      · exact hcurr d hd2

theorem pySplit_clean (l : List Char) : CleanWords (pySplit l) :=
  pySplitAux_clean l [] (by simp)

theorem joinSp_cons (w : List Char) (ws : List (List Char)) (h : ws ≠ []) :
    joinSp (w :: ws) = w ++ ' ' :: joinSp ws := by
  cases ws with
  | nil => exact absurd rfl h
  | cons a t => rfl

theorem pySplit_joinSp (ws : List (List Char)) (h : CleanWords ws) :
    pySplit (joinSp ws) = ws := by
  induction ws with
  | nil => rfl
  | cons w ws ih =>
    cases ws with
    | nil => simpa [joinSp] using pySplit_clean_word w (h w (by simp))
    | cons a t =>
      rw [joinSp_cons w (a :: t) (by simp), pySplit_append_space]
      rw [pySplit_clean_word w (h w (by simp))]
      rw [ih (fun v hv => h v (by simp [hv]))]
      rfl

theorem pySplit_normalize (l : List Char) : pySplit (normalize l) = pySplit l := by
  rw [normalize]
  exact pySplit_joinSp (pySplit l) (pySplit_clean l)

theorem normalize_idem (l : List Char) : normalize (normalize l) = normalize l := by
  rw [normalize, pySplit_normalize]
  rfl

theorem joinSp_ne_nil (ws : List (List Char)) (h : CleanWords ws) (hne : ws ≠ []) :
    joinSp ws ≠ [] := by
  cases ws with
  | nil => exact absurd rfl hne
  | cons w ws =>
    cases ws with
    | nil => exact (h w (by simp)).1
    | cons a t =>
      rw [joinSp_cons w (a :: t) (by simp)]
      cases hw : w with
      | nil => exact absurd hw (h w (by simp)).1
      | cons c w' => simp

theorem joinSp_append (A B : List (List Char)) (hA : A ≠ []) (hB : B ≠ []) :
    joinSp (A ++ B) = joinSp A ++ ' ' :: joinSp B := by
  induction A with
  | nil => exact absurd rfl hA
  | cons a A ih =>
    cases A with
    | nil => simpa [joinSp] using joinSp_cons a B hB
    | cons b A2 =>
      rw [List.cons_append, joinSp_cons a ((b :: A2) ++ B) (by simp),
        ih (by simp), joinSp_cons a (b :: A2) (by simp)]
      simp

theorem joinSp_head (ws : List (List Char)) (h : CleanWords ws) (hne : ws ≠ []) :
    ∃ c t, joinSp ws = c :: t ∧ isWS c = false := by
  cases ws with
  | nil => exact absurd rfl hne
  | cons w ws =>
    obtain ⟨hwne, hwc⟩ := h w (by simp)
    cases hw : w with
    | nil => exact absurd hw hwne
    | cons c w' =>
      cases ws with
      | nil => exact ⟨c, w', by simp [joinSp], hwc c (by simp [hw])⟩
      | cons a t =>
        refine ⟨c, w' ++ ' ' :: joinSp (a :: t), ?_, hwc c (by simp [hw])⟩
        rw [joinSp_cons (c :: w') (a :: t) (by simp)]
        rfl

theorem dropWhile_of_forall_false {p : Char → Bool} (l : List Char)
    (h : ∀ c ∈ l, p c = false) : l.dropWhile p = l := by
  cases l with
  | nil => rfl
  | cons c t => rw [List.dropWhile_cons, h c (by simp)]; simp

theorem rstrip_all_not_ws (w : List Char) (h : ∀ c ∈ w, isWS c = false) :
    pyRstrip w = w := by
  rw [pyRstrip, dropWhile_of_forall_false _ (fun c hc => h c (by simpa using hc))]
  simp

theorem lstrip_all_not_ws_head (c : Char) (t : List Char) (hc : isWS c = false) :
    pyLstrip (c :: t) = c :: t := by
  rw [pyLstrip, List.dropWhile_cons, hc]
  simp

theorem rstrip_append_sep (x y : List Char) (hy : pyRstrip y ≠ []) :
    pyRstrip (x ++ y) = x ++ pyRstrip y := by
  rw [pyRstrip, List.reverse_append, List.dropWhile_append]
  have : ¬ (y.reverse.dropWhile isWS).isEmpty := by
    intro hempty
    exact hy (by simp [pyRstrip, List.isEmpty_iff.1 hempty])
  rw [if_neg this]
  simp [pyRstrip]

theorem rstrip_joinSp (ws : List (List Char)) (h : CleanWords ws) :
    pyRstrip (joinSp ws) = joinSp ws := by
  induction ws with
  | nil => rfl
  | cons w ws ih =>
    cases ws with
    | nil => exact rstrip_all_not_ws w (fun c hc => (h w (by simp)).2 c hc)
    | cons a t =>
      have hrec : pyRstrip (joinSp (a :: t)) = joinSp (a :: t) :=
        ih (fun v hv => h v (by simp [hv]))
      have hne2 : joinSp (a :: t) ≠ [] :=
        joinSp_ne_nil (a :: t) (fun v hv => h v (by simp [hv])) (by simp)
      rw [joinSp_cons w (a :: t) (by simp)]
      have : w ++ ' ' :: joinSp (a :: t) = (w ++ [' ']) ++ joinSp (a :: t) := by simp
      rw [this, rstrip_append_sep _ _ (by rw [hrec]; exact hne2), hrec]

theorem lstrip_joinSp (ws : List (List Char)) (h : CleanWords ws) :
    pyLstrip (joinSp ws) = joinSp ws := by
  by_cases hne : ws = []
  · subst hne; rfl
  · obtain ⟨c, t, heq, hc⟩ := joinSp_head ws h hne
    rw [heq]
    exact lstrip_all_not_ws_head c t hc

theorem strip_joinSp (ws : List (List Char)) (h : CleanWords ws) :
    pyStrip (joinSp ws) = joinSp ws := by
  rw [pyStrip, lstrip_joinSp ws h, rstrip_joinSp ws h]

theorem strip_normalized (s : List Char) (h : normalize s = s) : pyStrip s = s := by
  conv_lhs => rw [← h]
  rw [normalize, strip_joinSp _ (pySplit_clean s), ← normalize]
  exact h

theorem dropWhile_head_false {p : Char → Bool} :
    ∀ (t : List Char) (d : Char) (dr : List Char),
      t.dropWhile p = d :: dr → p d = false := by
  intro t
  induction t with
  | nil => intro d dr h; simp at h
  | cons c t ih =>
    intro d dr h
    rw [List.dropWhile_cons] at h
    by_cases hc : p c
    · rw [if_pos hc] at h
      exact ih d dr h
    · rw [if_neg hc] at h
      cases h
      simpa using hc

theorem length_dropWhile_le' {p : Char → Bool} (l : List Char) :
    (l.dropWhile p).length ≤ l.length := by
  induction l with
  | nil => simp
  | cons c t ih =>
    rw [List.dropWhile_cons]
    by_cases hc : p c
    · rw [if_pos hc]; exact le_trans ih (by simp)
    · rw [if_neg hc]

theorem normalize_length_le_aux :
    ∀ (n : ℕ) (l : List Char), l.length ≤ n →
      (joinSp (pySplit l)).length ≤ (l.dropWhile isWS).length := by
  intro n
  induction n with
  | zero =>
    intro l hl
    have : l = [] := List.length_eq_zero.1 (Nat.le_zero.1 hl)
    subst this
    simp [pySplit, pySplitAux, joinSp]
  | succ n ih =>
    intro l hl
    cases l with
    | nil => simp [pySplit, pySplitAux, joinSp]
    | cons c t =>
      have hlt : t.length ≤ n := by simpa using hl
      by_cases hc : isWS c
      · rw [pySplit_ws_cons c t hc, List.dropWhile_cons, if_pos hc]
        exact ih t hlt
      · have hc' : isWS c = false := by simpa using hc
        rw [pySplit_cons_not_ws c t hc', List.dropWhile_cons, if_neg hc]
        have htkdr := List.takeWhile_append_dropWhile (p := fun x => !isWS x) (l := t)
        have hlen : (t.takeWhile (fun x => !isWS x)).length +
            (t.dropWhile (fun x => !isWS x)).length = t.length := by
          have h2 := congrArg List.length htkdr
          simp only [List.length_append] at h2
          exact h2
        cases hpd : pySplit (t.dropWhile (fun x => !isWS x)) with
        | nil =>
          simp only [joinSp]
          simp
          omega
        | cons w' rest =>
          rw [joinSp_cons _ _ (by simp)]
          have hdr_ne : t.dropWhile (fun x => !isWS x) ≠ [] := by
            intro h0
            rw [h0] at hpd
            simp [pySplit, pySplitAux] at hpd
          obtain ⟨d, dr', hdr⟩ : ∃ d dr', t.dropWhile (fun x => !isWS x) = d :: dr' := by
            cases hx : t.dropWhile (fun x => !isWS x) with
            | nil => exact absurd hx hdr_ne
            | cons d dr' => exact ⟨d, dr', rfl⟩
          have hd : isWS d = true := by
            have := dropWhile_head_false t d dr' hdr
            simpa using this
          have hjoin : (joinSp (pySplit (t.dropWhile (fun x => !isWS x)))).length ≤
              ((t.dropWhile (fun x => !isWS x)).dropWhile isWS).length := by
            refine ih _ ?_
            have := length_dropWhile_le' (p := fun x => !isWS x) t
            omega
          rw [hpd] at hjoin
          rw [hdr, List.dropWhile_cons, if_pos hd] at hjoin
          have hdrop2 : (dr'.dropWhile isWS).length ≤ dr'.length := length_dropWhile_le' dr'
          have hdrlen : (t.dropWhile (fun x => !isWS x)).length = dr'.length + 1 := by
            rw [hdr]; simp
          simp only [List.length_append, List.length_cons]
          omega
theorem normalize_length_le (l : List Char) : (normalize l).length ≤ l.length :=
  le_trans (normalize_length_le_aux l.length l (le_refl _)) (length_dropWhile_le' l)

/-- Every whitespace character of a space-joined clean word list is the
single space separator. -/
theorem wsOnly_joinSp (ws : List (List Char)) (h : CleanWords ws) :
    ∀ c ∈ joinSp ws, isWS c = true → c = ' ' := by
  induction ws with
  | nil => simp [joinSp]
  | cons w ws ih =>
    intro c hc hws
    cases ws with
    | nil =>
      exact absurd hws (by simp [(h w (by simp)).2 c (by simpa [joinSp] using hc)])
    | cons a t =>
      rw [joinSp_cons w (a :: t) (by simp)] at hc
      rcases List.mem_append.1 hc with hcw | hcr
      · exact absurd hws (by simp [(h w (by simp)).2 c hcw])
      · rcases List.mem_cons.1 hcr with rfl | hcr2
        · rfl
        · exact ih (fun v hv => h v (by simp [hv])) c hcr2 hws

/-- No two adjacent spaces occur in a space-joined clean word list. -/
theorem noDbl_joinSp (ws : List (List Char)) (h : CleanWords ws) :
    List.Chain' (fun a b => ¬(a = ' ' ∧ b = ' ')) (joinSp ws) := by
  induction ws with
  | nil => simp [joinSp]
  | cons w ws ih =>
    have hwclean := h w (by simp)
    have hword : ∀ (v : List Char), (∀ c ∈ v, isWS c = false) →
        List.Chain' (fun a b => ¬(a = ' ' ∧ b = ' ')) v := by
      intro v hv
      induction v with
      | nil => simp
      | cons c v ihv =>
        rw [List.chain'_cons']
        refine ⟨?_, ihv (fun d hd => hv d (by simp [hd]))⟩
        intro b hb hab
        have := hv c (by simp)
        rw [hab.1] at this
        simp [isWS] at this
    cases ws with
    | nil => exact hword w hwclean.2
    | cons a t =>
      rw [joinSp_cons w (a :: t) (by simp)]
      have htail := ih (fun v hv => h v (by simp [hv]))
      apply List.Chain'.append (hword w hwclean.2)
      · rw [List.chain'_cons']
        refine ⟨?_, htail⟩
        intro b hb hab
        obtain ⟨c, t2, heq, hcw⟩ :=
          joinSp_head (a :: t) (fun v hv => h v (by simp [hv])) (by simp)
        rw [heq] at hb
        simp at hb
        rw [hb, hab.2] at hcw
        simp [isWS] at hcw
      · intro x hx y hy hxy
        have hxw : x ∈ w := List.mem_of_mem_getLast? hx
        have := hwclean.2 x hxw
        rw [hxy.1] at this
        simp [isWS] at this

/-- The last character of a space-joined clean word list is never a space. -/
theorem joinSp_getLast_not_space (ws : List (List Char)) (h : CleanWords ws) :
    (joinSp ws).getLast? ≠ some ' ' := by
  induction ws with
  | nil => simp [joinSp]
  | cons w ws ih =>
    cases ws with
    | nil =>
      intro hcon
      have hmem : ' ' ∈ w := by
        have : joinSp [w] = w := rfl
        rw [this] at hcon
        exact List.mem_of_mem_getLast? hcon
      have := (h w (by simp)).2 ' ' hmem
      simp [isWS] at this
    | cons a t =>
      rw [joinSp_cons w (a :: t) (by simp)]
      have hne2 : joinSp (a :: t) ≠ [] :=
        joinSp_ne_nil (a :: t) (fun v hv => h v (by simp [hv])) (by simp)
      rw [List.getLast?_append_of_ne_nil _ (by simp [hne2])]
      have := ih (fun v hv => h v (by simp [hv]))
      cases hl : joinSp (a :: t) with
      | nil => exact absurd hl hne2
      | cons x xs =>
        rw [hl] at this
        rw [List.getLast?_cons_cons]
        exact this

/-- A space inside a space-joined clean word list is a separator: the word
list splits there into two nonempty halves, and take and drop around the
space recover their joins. -/
theorem splitAtSpace :
    ∀ (ws : List (List Char)), CleanWords ws → ∀ (idx : ℕ),
      (joinSp ws).get? idx = some ' ' →
      ∃ wsA wsB, ws = wsA ++ wsB ∧ wsA ≠ [] ∧ wsB ≠ [] ∧
        (joinSp ws).take idx = joinSp wsA ∧
        (joinSp ws).drop (idx + 1) = joinSp wsB := by
  intro ws
  induction ws with
  | nil => intro _ idx h; simp [joinSp] at h
  | cons w ws ih =>
    intro hclean idx hsp
    have hwclean := hclean w (by simp)
    cases ws with
    | nil =>
      exfalso
      have : ' ' ∈ w := List.get?_mem (by simpa [joinSp] using hsp)
      have := hwclean.2 ' ' this
      simp [isWS] at this
    | cons a t =>
      have hclean2 : CleanWords (a :: t) := fun v hv => hclean v (by simp [hv])
      have hJ := joinSp_cons w (a :: t) (by simp)
      rw [hJ] at hsp
      rcases lt_trichotomy idx w.length with hlt | heq | hgt
      · exfalso
        rw [List.get?_append hlt] at hsp
        have : ' ' ∈ w := List.get?_mem hsp
        have := hwclean.2 ' ' this
        simp [isWS] at this
      · subst heq
        refine ⟨[w], a :: t, rfl, by simp, by simp, ?_, ?_⟩
        · rw [hJ, List.take_left]
          rfl
        · rw [hJ, List.drop_append_eq_append_drop]
          simp
      · obtain ⟨j, hj⟩ : ∃ j, idx = w.length + 1 + j :=
          ⟨idx - (w.length + 1), by omega⟩
        subst hj
        rw [List.get?_append_right (by omega)] at hsp
        have hidx2 : w.length + 1 + j - w.length = j + 1 := by omega
        rw [hidx2] at hsp
        rw [List.get?_cons_succ] at hsp
        obtain ⟨wsA, wsB, hsplit, hAne, hBne, htake, hdrop⟩ :=
          ih hclean2 j hsp
        refine ⟨w :: wsA, wsB, by rw [hsplit]; rfl, by simp, hBne, ?_, ?_⟩
        · rw [hJ, List.take_append_eq_append_take,
            List.take_all_of_le (by omega)]
          have harith : w.length + 1 + j - w.length = j + 1 := by omega
          rw [harith, List.take_succ_cons, htake, joinSp_cons w wsA hAne]
        · rw [hJ, List.drop_append_eq_append_drop,
            List.drop_eq_nil_of_le (by omega)]
          have harith : w.length + 1 + j + 1 - w.length = j + 2 := by omega
          rw [harith]
          simp only [List.nil_append, List.drop_succ_cons]
          exact hdrop

/-- Pieces of a normalized string joined by single spaces are themselves
normalized. -/
theorem joinSp_parts_normalized :
    ∀ (parts : List (List Char)), (∀ q ∈ parts, q ≠ []) →
      normalize (joinSp parts) = joinSp parts → ∀ q ∈ parts, normalize q = q := by
  intro parts
  induction parts with
  | nil => intro _ _ q hq; simp at hq
  | cons p rest ih =>
    intro hne hnorm q hq
    cases rest with
    | nil =>
      rcases List.mem_cons.1 hq with rfl | hq2
      · simpa [joinSp] using hnorm
      · simp at hq2
    | cons a t =>
      have hJ := joinSp_cons p (a :: t) (by simp)
      have hsp : (joinSp (p :: a :: t)).get? p.length = some ' ' := by
        rw [hJ, List.get?_append_right (le_refl _)]
        simp
      have hsp2 : (joinSp (pySplit (joinSp (p :: a :: t)))).get? p.length = some ' ' := by
        rw [normalize] at hnorm
        rw [hnorm]
        exact hsp
      obtain ⟨wsA, wsB, hsplit, hAne, hBne, htake, hdrop⟩ :=
        splitAtSpace (pySplit (joinSp (p :: a :: t)))
          (pySplit_clean (joinSp (p :: a :: t))) p.length hsp2
      rw [normalize] at hnorm
      rw [hnorm] at htake hdrop
      rw [hJ, List.take_left] at htake
      rw [hJ, List.drop_append_eq_append_drop,
        List.drop_eq_nil_of_le (by omega)] at hdrop
      simp only [List.nil_append, Nat.add_sub_cancel_left, List.drop_succ_cons,
        List.drop_zero] at hdrop
      have hcleanAB : CleanWords (wsA ++ wsB) := by
        rw [← hsplit]
        exact pySplit_clean _
      have hcleanA : CleanWords wsA := fun v hv => hcleanAB v (by simp [hv])
      have hcleanB : CleanWords wsB := fun v hv => hcleanAB v (by simp [hv])
      rcases List.mem_cons.1 hq with rfl | hq2
      · rw [htake, normalize, pySplit_joinSp wsA hcleanA]
      · refine ih (fun v hv => hne v (by simp [hv])) ?_ q hq2
        rw [hdrop, normalize, pySplit_joinSp wsB hcleanB]

theorem pick_step_mem (target : ℕ) :
    ∀ (arr : List ℕ) (acc : Option ℕ) (i : ℕ),
      arr.foldl (fun acc i =>
        match acc with
        | none => some i
        | some j => if natDist i target < natDist j target then some i else acc)
          acc = some i →
      acc = some i ∨ i ∈ arr := by
  intro arr
  induction arr with
  | nil => intro acc i h; exact Or.inl h
  | cons a arr ih =>
    intro acc i h
    rw [List.foldl_cons] at h
    cases acc with
    | none =>
      replace h : arr.foldl (fun acc i =>
          match acc with
          | none => some i
          | some j => if natDist i target < natDist j target then some i else acc)
            (some a) = some i := h
      rcases ih (some a) i h with hstep | hmem
      · injection hstep with h2
        exact Or.inr (by simp [h2])
      · exact Or.inr (by simp [hmem])
    | some j =>
      replace h : arr.foldl (fun acc i =>
          match acc with
          | none => some i
          | some j => if natDist i target < natDist j target then some i else acc)
            (if natDist a target < natDist j target then some a else some j) =
          some i := h
      by_cases hd : natDist a target < natDist j target
      · rw [if_pos hd] at h
        rcases ih _ i h with hstep | hmem
        · injection hstep with h2
          exact Or.inr (by simp [h2])
        · exact Or.inr (by simp [hmem])
      · rw [if_neg hd] at h
        rcases ih _ i h with hstep | hmem
        · exact Or.inl hstep
        · exact Or.inr (by simp [hmem])

theorem pick_mem (target : ℕ) (arr : List ℕ) (i : ℕ) (h : pick target arr = some i) :
    i ∈ arr := by
  rcases pick_step_mem target arr none i h with hcon | hmem
  · simp at hcon
  · exact hmem

theorem pick_step_isSome (target : ℕ) :
    ∀ (arr : List ℕ) (acc : Option ℕ), acc.isSome →
      (arr.foldl (fun acc i =>
        match acc with
        | none => some i
        | some j => if natDist i target < natDist j target then some i else acc)
          acc).isSome := by
  intro arr
  induction arr with
  | nil => intro acc h; exact h
  | cons a arr ih =>
    intro acc h
    rw [List.foldl_cons]
    cases acc with
    | none =>
      refine ih _ ?_
      rfl
    | some j =>
      refine ih _ ?_
      show (if natDist a target < natDist j target then some a else some j).isSome
      split_ifs <;> rfl

theorem pick_isSome (target : ℕ) (arr : List ℕ) (h : arr ≠ []) :
    ∃ i, pick target arr = some i := by
  cases arr with
  | nil => exact absurd rfl h
  | cons a arr =>
    have : (pick target (a :: arr)).isSome := by
      rw [pick, List.foldl_cons]
      exact pick_step_isSome target arr (some a) rfl
    exact Option.isSome_iff_exists.1 this

theorem pyOr_eq_some (a b : Option ℕ) (i : ℕ) (h : pyOr a b = some i) :
    (a = some i ∧ i ≠ 0) ∨ b = some i := by
  cases a with
  | none => exact Or.inr h
  | some j =>
    by_cases hj : j = 0
    · rw [pyOr, if_pos hj] at h
      exact Or.inr h
    · rw [pyOr, if_neg hj] at h
      injection h with h2
      exact Or.inl ⟨by rw [h2], by rw [← h2]; exact hj⟩

theorem getD_get? : ∀ (l : List Char) (n : ℕ) (d : Char), n < l.length →
    l.get? n = some (l.getD n d) := by
  intro l
  induction l with
  | nil => intro n d h; simp at h
  | cons c t ih =>
    intro n d h
    cases n with
    | zero => rfl
    | succ m => exact ih m d (by simpa using h)

theorem getD_of_get? : ∀ (l : List Char) (n : ℕ) (d x : Char),
    l.get? n = some x → l.getD n d = x := by
  intro l
  induction l with
  | nil => intro n d x h; simp at h
  | cons c t ih =>
    intro n d x h
    cases n with
    | zero => exact Option.some.inj h
    | succ m => exact ih m d x h

theorem get?_lt_length : ∀ (l : List Char) (n : ℕ) (x : Char),
    l.get? n = some x → n < l.length := by
  intro l
  induction l with
  | nil => intro n x h; simp at h
  | cons c t ih =>
    intro n x h
    cases n with
    | zero => simp
    | succ m => exact Nat.succ_lt_succ (ih m x h)

theorem drop_eq_cons_of_get? : ∀ (l : List Char) (n : ℕ) (x : Char),
    l.get? n = some x → l.drop n = x :: l.drop (n + 1) := by
  intro l
  induction l with
  | nil => intro n x h; simp at h
  | cons c t ih =>
    intro n x h
    cases n with
    | zero =>
      rw [Option.some.inj h]
      rfl
    | succ m =>
      rw [List.drop_succ_cons, ih m x h]
      rfl

theorem rstrip_concat_space (x : List Char) : pyRstrip (x ++ [' ']) = pyRstrip x := by
  rw [pyRstrip, pyRstrip, List.reverse_append]
  simp only [List.reverse_cons, List.reverse_nil, List.nil_append,
    List.singleton_append, List.dropWhile_cons, isWS_space]
  rfl

/-- Break at a space position: `take`, one separator, `lstrip` and `rstrip`
recover the two joined halves of the word list. -/
theorem bb_core_at (s : List Char) (i : ℕ) (hn : normalize s = s)
    (hi : s.get? i = some ' ') :
    ∃ wsA wsB, pySplit s = wsA ++ wsB ∧ wsA ≠ [] ∧ wsB ≠ [] ∧
      pyRstrip (s.take (i + 1)) = joinSp wsA ∧
      pyLstrip (s.drop (i + 1)) = joinSp wsB := by
  have hs_eq : joinSp (pySplit s) = s := hn
  have hi2 : (joinSp (pySplit s)).get? i = some ' ' := by rw [hs_eq]; exact hi
  obtain ⟨wsA, wsB, hsplit, hAne, hBne, htake, hdrop⟩ :=
    splitAtSpace (pySplit s) (pySplit_clean s) i hi2
  rw [hs_eq] at htake hdrop
  have hcleanA : CleanWords wsA := by
    intro v hv
    exact pySplit_clean s v (by rw [hsplit]; exact List.mem_append.2 (Or.inl hv))
  have hcleanB : CleanWords wsB := by
    intro v hv
    exact pySplit_clean s v (by rw [hsplit]; exact List.mem_append.2 (Or.inr hv))
  refine ⟨wsA, wsB, hsplit, hAne, hBne, ?_, ?_⟩
  · have hi' : s[i]? = some ' ' := by
      rw [← List.get?_eq_getElem?]
      exact hi
    rw [List.take_succ, hi', Option.toList_some, htake]
    rw [rstrip_concat_space, rstrip_joinSp wsA hcleanA]
  · rw [hdrop, lstrip_joinSp wsB hcleanB]

/-- Break just before a space position (the punctuation case): the space at
`i + 1` separates the halves. -/
theorem bb_core_after (s : List Char) (i : ℕ) (hn : normalize s = s)
    (hi1 : s.get? (i + 1) = some ' ') :
    ∃ wsA wsB, pySplit s = wsA ++ wsB ∧ wsA ≠ [] ∧ wsB ≠ [] ∧
      pyRstrip (s.take (i + 1)) = joinSp wsA ∧
      pyLstrip (s.drop (i + 1)) = joinSp wsB := by
  have hs_eq : joinSp (pySplit s) = s := hn
  have hi2 : (joinSp (pySplit s)).get? (i + 1) = some ' ' := by rw [hs_eq]; exact hi1
  obtain ⟨wsA, wsB, hsplit, hAne, hBne, htake, hdrop⟩ :=
    splitAtSpace (pySplit s) (pySplit_clean s) (i + 1) hi2
  rw [hs_eq] at htake hdrop
  have hcleanA : CleanWords wsA := by
    intro v hv
    exact pySplit_clean s v (by rw [hsplit]; exact List.mem_append.2 (Or.inl hv))
  have hcleanB : CleanWords wsB := by
    intro v hv
    exact pySplit_clean s v (by rw [hsplit]; exact List.mem_append.2 (Or.inr hv))
  refine ⟨wsA, wsB, hsplit, hAne, hBne, ?_, ?_⟩
  · rw [htake, rstrip_joinSp wsA hcleanA]
  · rw [drop_eq_cons_of_get? s (i + 1) ' ' hi1, hdrop]
    show pyLstrip (' ' :: joinSp wsB) = joinSp wsB
    rw [pyLstrip, List.dropWhile_cons, if_pos isWS_space]
    exact lstrip_joinSp wsB hcleanB

/-- Master lemma for `_balanced_break` on a normalized string with at least
two words: whichever break point the window search selects, the result is a
split of the word list into two nonempty halves joined by single spaces. -/
theorem balancedBreak_spec (s : List Char) (target : ℕ)
    (hn : normalize s = s) (h2 : 2 ≤ (pySplit s).length) :
    ∃ wsA wsB, pySplit s = wsA ++ wsB ∧ wsA ≠ [] ∧ wsB ≠ [] ∧
      balancedBreak s target = (joinSp wsA, joinSp wsB) := by
  have hclean := pySplit_clean s
  have hs_eq : joinSp (pySplit s) = s := hn
  obtain ⟨w1, rest, hsplit1, hrest⟩ :
      ∃ w1 rest, pySplit s = w1 :: rest ∧ rest ≠ [] := by
    cases hps : pySplit s with
    | nil => rw [hps] at h2; simp at h2
    | cons w1 rest =>
      cases rest with
      | nil => rw [hps] at h2; simp at h2
      | cons a t => exact ⟨w1, a :: t, rfl, by simp⟩
  have hcleanRest : CleanWords rest := by
    intro v hv
    exact hclean v (by rw [hsplit1]; simp [hv])
  have hw1 : CleanWord w1 := hclean w1 (by rw [hsplit1]; simp)
  have hsJ : s = w1 ++ ' ' :: joinSp rest := by
    conv_lhs => rw [← hs_eq, hsplit1, joinSp_cons w1 rest hrest]
  have hw1pos : 1 ≤ w1.length := List.length_pos.2 hw1.1
  have hjrpos : 1 ≤ (joinSp rest).length :=
    List.length_pos.2 (joinSp_ne_nil rest hcleanRest hrest)
  have hslen : s.length = w1.length + 1 + (joinSp rest).length := by
    rw [hsJ]; simp; omega
  have hlen3 : 3 ≤ s.length := by omega
  have hsp0 : s.get? w1.length = some ' ' := by
    rw [hsJ, List.get?_append_right (le_refl _)]
    simp
  have hhead : ¬ s.get? 0 = some ' ' := by
    obtain ⟨c, t, heq, hc⟩ := joinSp_head (pySplit s)
      (pySplit_clean s) (by rw [hsplit1]; simp)
    rw [hs_eq] at heq
    rw [heq]
    intro hcon
    injection hcon with h3
    rw [h3] at hc
    simp [isWS] at hc
  simp only [balancedBreak, strip_normalized s hn]
  rw [if_neg (by omega)]
  set lo := max 1 (target - max 12 (s.length / 6)) with hlo
  set hi := min (s.length - 1) (target + max 12 (s.length / 6)) with hhi
  set punct := (List.range' lo (hi - lo)).filter
    (fun i => decide (s.getD i 'x' ∈ punctChars) && decide (i + 1 < s.length) &&
      (s.getD (i + 1) 'x' == ' ')) with hpunct
  set spaces := (List.range' lo (hi - lo)).filter
    (fun i => s.getD i 'x' == ' ') with hspaces
  set all_spaces := (List.range s.length).filter
    (fun i => s.getD i 'x' == ' ') with hallsp
  cases hsel : pyOr (pick target punct) (pick target spaces) with
  | some i =>
    simp only [hsel]
    rcases pyOr_eq_some _ _ i hsel with ⟨hpick, _⟩ | hpick
    · -- punctuation break: the space sits at i + 1
      have hmem := pick_mem target punct i hpick
      rw [hpunct, List.mem_filter] at hmem
      obtain ⟨_, hcond⟩ := hmem
      simp only [Bool.and_eq_true, decide_eq_true_eq, beq_iff_eq] at hcond
      obtain ⟨⟨_, hi1⟩, hsp1⟩ := hcond
      have hget : s.get? (i + 1) = some ' ' := by
        have := getD_get? s (i + 1) 'x' hi1
        rw [hsp1] at this
        exact this
      obtain ⟨wsA, wsB, hsp2, hA, hB, hL, hR⟩ := bb_core_after s i hn hget
      exact ⟨wsA, wsB, hsp2, hA, hB, by rw [hL, hR]⟩
    · -- plain space inside the window
      have hmem := pick_mem target spaces i hpick
      rw [hspaces, List.mem_filter] at hmem
      obtain ⟨hrange, hcond⟩ := hmem
      rw [List.mem_range'_1] at hrange
      have hihi : hi ≤ s.length - 1 := by rw [hhi]; exact min_le_left _ _
      have hilt : i < s.length := by omega
      have hget : s.get? i = some ' ' := by
        have := getD_get? s i 'x' hilt
        rw [beq_iff_eq] at hcond
        rw [hcond] at this
        exact this
      obtain ⟨wsA, wsB, hsp2, hA, hB, hL, hR⟩ := bb_core_at s i hn hget
      exact ⟨wsA, wsB, hsp2, hA, hB, by rw [hL, hR]⟩
  | none =>
    simp only [hsel]
    have hw1lt : w1.length < s.length := by omega
    have hmem0 : w1.length ∈ all_spaces := by
      rw [hallsp, List.mem_filter]
      refine ⟨List.mem_range.2 hw1lt, ?_⟩
      rw [beq_iff_eq]
      exact getD_of_get? s w1.length 'x' ' ' hsp0
    obtain ⟨i, hpick⟩ := pick_isSome target all_spaces (List.ne_nil_of_mem hmem0)
    rw [hpick]
    have himem := pick_mem target all_spaces i hpick
    rw [hallsp, List.mem_filter] at himem
    obtain ⟨hrange, hcond⟩ := himem
    rw [List.mem_range] at hrange
    rw [beq_iff_eq] at hcond
    have hget : s.get? i = some ' ' := by
      have := getD_get? s i 'x' hrange
      rw [hcond] at this
      exact this
    have hi0 : i ≠ 0 := by
      intro h0
      rw [h0] at hget
      exact hhead hget
    simp only [pyOrNat, if_neg hi0]
    obtain ⟨wsA, wsB, hsp2, hA, hB, hL, hR⟩ := bb_core_at s i hn hget
    exact ⟨wsA, wsB, hsp2, hA, hB, by rw [hL, hR]⟩

theorem joinSp_append_length (wsA wsB : List (List Char)) (hA : wsA ≠ [])
    (hB : wsB ≠ []) :
    (joinSp (wsA ++ wsB)).length =
      (joinSp wsA).length + 1 + (joinSp wsB).length := by
  rw [joinSp_append wsA wsB hA hB]
  simp
  omega

theorem balancedBreak_shorter (s : List Char) (target : ℕ)
    (hn : normalize s = s) (h2 : 2 ≤ (pySplit s).length) :
    (balancedBreak s target).1.length < s.length ∧
    (balancedBreak s target).2.length < s.length := by
  obtain ⟨wsA, wsB, hsplit, hA, hB, hbb⟩ := balancedBreak_spec s target hn h2
  have hs_eq : joinSp (pySplit s) = s := hn
  have hslen : s.length = (joinSp wsA).length + 1 + (joinSp wsB).length := by
    conv_lhs => rw [← hs_eq, hsplit]
    exact joinSp_append_length wsA wsB hA hB
  rw [hbb]
  constructor
  · show (joinSp wsA).length < s.length
    omega
  · show (joinSp wsB).length < s.length
    omega

theorem wlcGo_le (width : ℕ) :
    ∀ (ws : List (List Char)) (lines cur : ℕ), wlcGo width lines cur ws ≤ lines + ws.length := by
  intro ws
  induction ws with
  | nil => intro lines cur; simp [wlcGo]
  | cons w ws ih =>
    intro lines cur
    rw [wlcGo]
    by_cases h : cur + 1 + w.length ≤ width
    · rw [if_pos h]
      exact le_trans (ih _ _) (by simp only [List.length_cons]; omega)
    · rw [if_neg h]
      exact le_trans (ih _ _) (by simp only [List.length_cons]; omega)

theorem two_le_words_of_wlc (s : List Char) (width : ℕ)
    (h : 2 ≤ wrappedLineCount s width) : 2 ≤ (pySplit s).length := by
  rw [wrappedLineCount] at h
  by_cases hw : width = 0
  · rw [if_pos hw] at h
    by_cases hs : s = [] <;> simp [hs] at h
  · rw [if_neg hw] at h
    cases hps : pySplit s with
    | nil => rw [hps] at h; simp at h
    | cons w ws =>
      rw [hps] at h
      replace h : 2 ≤ wlcGo width 1 w.length ws := h
      have := wlcGo_le width ws 1 w.length
      simp only [List.length_cons]
      omega

theorem autosplit_decrease (width maxLines : ℕ) (hml : 0 < maxLines) (t : List Char)
    (hbig : ¬ wrappedLineCount (normalize t) width ≤ maxLines) :
    (balancedBreak (normalize t) ((normalize t).length / 2)).1.length < t.length ∧
    (balancedBreak (normalize t) ((normalize t).length / 2)).2.length < t.length := by
  have h2 : 2 ≤ wrappedLineCount (normalize t) width := by omega
  have h2w : 2 ≤ (pySplit (normalize t)).length := two_le_words_of_wlc _ _ h2
  have := balancedBreak_shorter (normalize t) ((normalize t).length / 2)
    (normalize_idem t) h2w
  exact ⟨lt_of_lt_of_le this.1 (normalize_length_le t),
    lt_of_lt_of_le this.2 (normalize_length_le t)⟩

/-- `SubtitlePolicy._autosplit_chunk`: recursively split oversize text into
balanced chunks.  Termination: on normalized text that exceeds the line
budget the balanced break strictly shortens both halves
(`autosplit_decrease`); the positivity of `max_lines` is guaranteed by the
policy constructor. -/
def autosplitChunk (width maxLines : ℕ) (hml : 0 < maxLines) (t : List Char) :
    List (List Char) :=
  let text := normalize t
  if h0 : text = [] then []
  else if h1 : wrappedLineCount text width ≤ maxLines then [text]
  else
    let pr := balancedBreak text (text.length / 2)
    autosplitChunk width maxLines hml pr.1 ++ autosplitChunk width maxLines hml pr.2
termination_by t.length
decreasing_by
  · exact (autosplit_decrease width maxLines hml t h1).1
  · exact (autosplit_decrease width maxLines hml t h1).2

/-- Combined specification of `_autosplit_chunk`: joining its result with
single spaces recovers the normalized input, and every produced chunk is
nonempty, normalized, and fits the line budget. -/
theorem autosplitChunk_spec (width maxLines : ℕ) (hml : 0 < maxLines) :
    ∀ (n : ℕ) (t : List Char), t.length ≤ n →
      joinSp (autosplitChunk width maxLines hml t) = normalize t ∧
      ∀ c ∈ autosplitChunk width maxLines hml t,
        c ≠ [] ∧ normalize c = c ∧ wrappedLineCount c width ≤ maxLines := by
  intro n
  induction n with
  | zero =>
    intro t ht
    have ht0 : t = [] := List.length_eq_zero.1 (Nat.le_zero.1 ht)
    subst ht0
    rw [autosplitChunk]
    simp [normalize, pySplit, pySplitAux, joinSp]
  | succ n ih =>
    intro t ht
    rw [autosplitChunk]
    by_cases h0 : normalize t = []
    · rw [dif_pos h0]
      simp [joinSp, h0]
    · rw [dif_neg h0]
      by_cases h1 : wrappedLineCount (normalize t) width ≤ maxLines
      · rw [dif_pos h1]
        refine ⟨rfl, ?_⟩
        intro c hc
        rcases List.mem_cons.1 hc with rfl | hc2
        · exact ⟨h0, normalize_idem t, h1⟩
        · simp at hc2
      · rw [dif_neg h1]
        have hd := autosplit_decrease width maxLines hml t h1
        have h2w : 2 ≤ (pySplit (normalize t)).length :=
          two_le_words_of_wlc (normalize t) width (by omega)
        obtain ⟨wsA, wsB, hsplit, hA, hB, hbb⟩ :=
          balancedBreak_spec (normalize t) ((normalize t).length / 2)
            (normalize_idem t) h2w
        have hcleanAB : CleanWords (wsA ++ wsB) := by
          rw [← hsplit]
          exact pySplit_clean _
        have hcleanA : CleanWords wsA := fun v hv => hcleanAB v (by simp [hv])
        have hcleanB : CleanWords wsB := fun v hv => hcleanAB v (by simp [hv])
        have hL1 : (balancedBreak (normalize t) ((normalize t).length / 2)).1 =
            joinSp wsA := by rw [hbb]
        have hR1 : (balancedBreak (normalize t) ((normalize t).length / 2)).2 =
            joinSp wsB := by rw [hbb]
        have ihL := ih (balancedBreak (normalize t) ((normalize t).length / 2)).1
          (by omega)
        have ihR := ih (balancedBreak (normalize t) ((normalize t).length / 2)).2
          (by omega)
        have hnL : normalize (balancedBreak (normalize t)
            ((normalize t).length / 2)).1 = (balancedBreak (normalize t)
            ((normalize t).length / 2)).1 := by
          rw [hL1, normalize, pySplit_joinSp wsA hcleanA]
        have hnR : normalize (balancedBreak (normalize t)
            ((normalize t).length / 2)).2 = (balancedBreak (normalize t)
            ((normalize t).length / 2)).2 := by
          rw [hR1, normalize, pySplit_joinSp wsB hcleanB]
        have hLne : (balancedBreak (normalize t) ((normalize t).length / 2)).1 ≠
            [] := by
          rw [hL1]
          exact joinSp_ne_nil wsA hcleanA hA
        have hRne : (balancedBreak (normalize t) ((normalize t).length / 2)).2 ≠
            [] := by
          rw [hR1]
          exact joinSp_ne_nil wsB hcleanB hB
        have hALne : autosplitChunk width maxLines hml
            (balancedBreak (normalize t) ((normalize t).length / 2)).1 ≠ [] := by
          intro hcon
          rw [hcon] at ihL
          have : ([] : List Char) = normalize (balancedBreak (normalize t)
              ((normalize t).length / 2)).1 := ihL.1
          rw [hnL] at this
          exact hLne this.symm
        have hARne : autosplitChunk width maxLines hml
            (balancedBreak (normalize t) ((normalize t).length / 2)).2 ≠ [] := by
          intro hcon
          rw [hcon] at ihR
          have : ([] : List Char) = normalize (balancedBreak (normalize t)
              ((normalize t).length / 2)).2 := ihR.1
          rw [hnR] at this
          exact hRne this.symm
        constructor
        · rw [joinSp_append _ _ hALne hARne, ihL.1, ihR.1, hnL, hnR, hL1, hR1,
            ← joinSp_append wsA wsB hA hB, ← hsplit]
          exact normalize_idem t
        · intro c hc
          rcases List.mem_append.1 hc with hcl | hcr
          · exact ihL.2 c hcl
          · exact ihR.2 c hcr

theorem sentSplitAux_ne_nil :
    ∀ (rest : List Char) (skip : Bool) (acc : List Char),
      sentSplitAux skip acc rest ≠ [] := by
  intro rest
  induction rest with
  | nil => intro skip acc; cases skip <;> simp [sentSplitAux]
  | cons c t ih =>
    intro skip acc
    cases skip with
    | true =>
      rw [sentSplitAux]
      by_cases hc : isWS c
      · rw [if_pos hc]; exact ih true acc
      · rw [if_neg hc]; exact ih false [c]
    | false =>
      rw [sentSplitAux]
      by_cases hc : isWS c && sentBoundary acc
      · rw [if_pos hc]; simp
      · rw [if_neg hc]; exact ih false (c :: acc)

theorem getLast?_ne_space_tail (c : Char) (t : List Char)
    (h : (c :: t).getLast? ≠ some ' ') : t.getLast? ≠ some ' ' := by
  cases t with
  | nil => simp
  | cons d t2 =>
    rw [List.getLast?_cons_cons] at h
    exact h

/-- Specification of the sentence-splitter scan on clean suffixes: it emits
nonempty parts whose space-join is the input (in skip mode, the remaining
input). -/
theorem sentSplitAux_spec :
    ∀ (rest : List Char) (skip : Bool) (acc : List Char),
      (∀ c ∈ rest, isWS c = true → c = ' ') →
      List.Chain' (fun a b => ¬(a = ' ' ∧ b = ' ')) rest →
      rest.getLast? ≠ some ' ' →
      (skip = true → ∃ c t, rest = c :: t ∧ isWS c = false) →
      (skip = false → acc = [] → ∃ c t, rest = c :: t ∧ isWS c = false) →
      joinSp (sentSplitAux skip acc rest) =
        (if skip then rest else acc.reverse ++ rest) ∧
      ∀ q ∈ sentSplitAux skip acc rest, q ≠ [] := by
  intro rest
  induction rest with
  | nil =>
    intro skip acc _ _ _ hskip hfalse
    cases skip with
    | true => obtain ⟨c, t, hct, -⟩ := hskip rfl; simp at hct
    | false =>
      have hacc : acc ≠ [] := by
        intro h0
        obtain ⟨c, t, hct, -⟩ := hfalse rfl h0
        simp at hct
      rw [sentSplitAux]
      refine ⟨by simp [joinSp], ?_⟩
      intro q hq
      rcases List.mem_cons.1 hq with rfl | hq2
      · simpa using hacc
      · simp at hq2
  | cons c t ih =>
    intro skip acc hw1 hw2 hw3 hskip hfalse
    have hw1t : ∀ d ∈ t, isWS d = true → d = ' ' := fun d hd => hw1 d (by simp [hd])
    have hw2t : List.Chain' (fun a b => ¬(a = ' ' ∧ b = ' ')) t := hw2.tail
    have hw3t : t.getLast? ≠ some ' ' := getLast?_ne_space_tail c t hw3
    cases skip with
    | true =>
      obtain ⟨c2, t2, hct, hcw⟩ := hskip rfl
      injection hct with hc1 ht1
      subst hc1
      subst ht1
      rw [sentSplitAux, if_neg (by simp [hcw])]
      have := ih false [c] hw1t hw2t hw3t (by intro h; simp at h) (by intro _ h; simp at h)
      rw [this.1]
      exact ⟨by simp, this.2⟩
    | false =>
      by_cases hfire : isWS c && sentBoundary acc
      · rw [sentSplitAux, if_pos hfire]
        rw [Bool.and_eq_true] at hfire
        have hcsp : c = ' ' := hw1 c (by simp) hfire.1
        have hacc_ne : acc ≠ [] := by
          intro h0
          rw [h0] at hfire
          simp [sentBoundary] at hfire
        obtain ⟨d, t2, ht⟩ : ∃ d t2, t = d :: t2 := by
          cases ht0 : t with
          | nil =>
            rw [ht0] at hw3
            rw [hcsp] at hw3
            simp at hw3
          | cons d t2 => exact ⟨d, t2, rfl⟩
        have hdnw : isWS d = false := by
          have hw2c : List.Chain' (fun a b => ¬(a = ' ' ∧ b = ' ')) (c :: d :: t2) := by
            rw [← ht]
            exact hw2
          have hrel : ¬(c = ' ' ∧ d = ' ') := (List.chain'_cons.1 hw2c).1
          have hdne : d ≠ ' ' := by
            intro h0
            exact hrel ⟨hcsp, h0⟩
          by_cases hd : isWS d
          · exact absurd (hw1t d (by simp [ht]) hd) hdne
          · simpa using hd
        have := ih true [] hw1t hw2t hw3t
          (by intro _; exact ⟨d, t2, ht, hdnw⟩) (by intro h; simp at h)
        rw [joinSp_cons _ _ (sentSplitAux_ne_nil t true []), this.1]
        refine ⟨by simp [hcsp], ?_⟩
        intro q hq
        rcases List.mem_cons.1 hq with rfl | hq2
        · simpa using hacc_ne
        · exact this.2 q hq2
      · rw [sentSplitAux, if_neg hfire]
        have := ih false (c :: acc) hw1t hw2t hw3t
          (by intro h; simp at h) (by intro _ h; simp at h)
        rw [this.1]
        exact ⟨by simp, this.2⟩

/-- The policy sentence split on a normalized string: parts are nonempty,
normalized, and joining them with single spaces recovers the string. -/
theorem sentSplitRe_spec (s : List Char) (hn : normalize s = s) (hne : s ≠ []) :
    joinSp (sentSplitRe s) = s ∧
    ∀ q ∈ sentSplitRe s, q ≠ [] ∧ normalize q = q := by
  have hw1 : ∀ c ∈ s, isWS c = true → c = ' ' := by
    intro c hc
    rw [← hn] at hc
    exact wsOnly_joinSp (pySplit s) (pySplit_clean s) c hc
  have hw2 : List.Chain' (fun a b => ¬(a = ' ' ∧ b = ' ')) s := by
    rw [← hn]
    exact noDbl_joinSp (pySplit s) (pySplit_clean s)
  have hw3 : s.getLast? ≠ some ' ' := by
    rw [← hn]
    exact joinSp_getLast_not_space (pySplit s) (pySplit_clean s)
  have hhead : ∃ c t, s = c :: t ∧ isWS c = false := by
    have hpne : pySplit s ≠ [] := by
      intro h0
      refine hne ?_
      rw [← hn, normalize, h0]
      rfl
    obtain ⟨c, t, heq, hc⟩ := joinSp_head (pySplit s) (pySplit_clean s) hpne
    refine ⟨c, t, ?_, hc⟩
    rw [← hn]
    exact heq
  obtain ⟨hjoin, hparts⟩ := sentSplitAux_spec s false [] hw1 hw2 hw3
    (by intro h; simp at h) (fun _ _ => hhead)
  rw [if_neg (by simp)] at hjoin
  simp only [List.reverse_nil, List.nil_append] at hjoin
  refine ⟨hjoin, ?_⟩
  intro q hq
  refine ⟨hparts q hq, ?_⟩
  have hjoin2 : joinSp (sentSplitRe s) = s := hjoin
  exact joinSp_parts_normalized (sentSplitRe s) hparts
    (by rw [hjoin2]; exact hn) q hq

/-- `SubtitlePolicy.chunk`: normalize, split into sentence-like parts, keep
parts that fit the line budget, autosplit the rest, then merge a tiny tail. -/
def chunk (p : SubtitlePolicy) (text : List Char) : List (List Char) :=
  let text := normalize text
  if text = [] then []
  else
    let parts := (sentSplitRe text).filter (fun q => !q.isEmpty)
    let chunks := parts.flatMap (fun q =>
      if wrappedLineCount q p.wrap_chars ≤ p.max_lines then [q]
      else autosplitChunk p.wrap_chars p.max_lines p.max_lines_pos q)
    mergeTinyTail chunks p.wrap_chars p.max_lines

theorem flatMap_ne_nil (f : List Char → List (List Char))
    (ps : List (List Char)) (hne : ps ≠ []) (hf : ∀ q ∈ ps, f q ≠ []) :
    ps.flatMap f ≠ [] := by
  cases ps with
  | nil => exact absurd rfl hne
  | cons q ps =>
    rw [List.flatMap_cons]
    intro h
    exact hf q (by simp) (List.append_eq_nil.1 h).1

theorem joinSp_flatMap (f : List Char → List (List Char)) :
    ∀ (ps : List (List Char)), (∀ q ∈ ps, f q ≠ []) →
      (∀ q ∈ ps, joinSp (f q) = q) → joinSp (ps.flatMap f) = joinSp ps := by
  intro ps
  induction ps with
  | nil => intro _ _; rfl
  | cons q ps ih =>
    intro hf hjoin
    rw [List.flatMap_cons]
    by_cases hps : ps = []
    · subst hps
      simp only [List.flatMap_nil, List.append_nil]
      rw [hjoin q (by simp)]
      rfl
    · have hflat_ne : ps.flatMap f ≠ [] :=
        flatMap_ne_nil f ps hps (fun v hv => hf v (by simp [hv]))
      rw [joinSp_append _ _ (hf q (by simp)) hflat_ne,
        ih (fun v hv => hf v (by simp [hv])) (fun v hv => hjoin v (by simp [hv])),
        hjoin q (by simp), joinSp_cons q ps hps]

theorem pySplit_ne_nil_of_normalized (q : List Char) (hq : q ≠ [])
    (hn : normalize q = q) : pySplit q ≠ [] := by
  intro h0
  refine hq ?_
  rw [← hn, normalize, h0]
  rfl

/-- Joining two normalized nonempty pieces with one space is normalized, and
`strip` leaves it unchanged. -/
theorem strip_merge_eq (prev tail : List Char) (hp : prev ≠ [])
    (hpn : normalize prev = prev) (ht : tail ≠ []) (htn : normalize tail = tail) :
    pyStrip (prev ++ ' ' :: tail) = prev ++ ' ' :: tail ∧
    normalize (prev ++ ' ' :: tail) = prev ++ ' ' :: tail := by
  have hpp : joinSp (pySplit prev) = prev := hpn
  have htt : joinSp (pySplit tail) = tail := htn
  have hpne := pySplit_ne_nil_of_normalized prev hp hpn
  have htne := pySplit_ne_nil_of_normalized tail ht htn
  have hqc : CleanWords (pySplit prev ++ pySplit tail) := by
    intro v hv
    rcases List.mem_append.1 hv with h | h
    · exact pySplit_clean prev v h
    · exact pySplit_clean tail v h
  have hjoin : prev ++ ' ' :: tail = joinSp (pySplit prev ++ pySplit tail) := by
    rw [joinSp_append _ _ hpne htne, hpp, htt]
  constructor
  · rw [hjoin, strip_joinSp _ hqc]
  · rw [hjoin, normalize, pySplit_joinSp _ hqc]

/-- `_merge_tiny_tail` preserves the joined content, emptiness, and the
per-chunk invariants; its output chunks respect the line budget whenever the
input chunks do. -/
theorem mergeTinyTail_spec (chunks : List (List Char)) (w ml : ℕ)
    (hch : ∀ c ∈ chunks, c ≠ [] ∧ normalize c = c) :
    joinSp (mergeTinyTail chunks w ml) = joinSp chunks ∧
    (mergeTinyTail chunks w ml = [] ↔ chunks = []) ∧
    (∀ c ∈ mergeTinyTail chunks w ml, c ≠ [] ∧ normalize c = c) ∧
    ((∀ c ∈ chunks, wrappedLineCount c w ≤ ml) →
      ∀ c ∈ mergeTinyTail chunks w ml, wrappedLineCount c w ≤ ml) := by
  rw [mergeTinyTail]
  by_cases hlen : chunks.length < 2
  · rw [if_pos hlen]
    exact ⟨rfl, Iff.rfl, hch, fun h => h⟩
  · rw [if_neg hlen]
    cases hrev : chunks.reverse with
    | nil =>
      exfalso
      have : chunks = [] := by
        rw [← List.reverse_reverse chunks, hrev]
        rfl
      rw [this] at hlen
      simp at hlen
    | cons tail rest2 =>
      cases rest2 with
      | nil =>
        exfalso
        have : chunks = [tail] := by
          rw [← List.reverse_reverse chunks, hrev]
          rfl
        rw [this] at hlen
        simp at hlen
      | cons prev restRev =>
        dsimp only
        have hchunks_eq : chunks = restRev.reverse ++ [prev, tail] := by
          rw [← List.reverse_reverse chunks, hrev]
          simp
        have hprev : prev ∈ chunks := by rw [hchunks_eq]; simp
        have htail : tail ∈ chunks := by rw [hchunks_eq]; simp
        obtain ⟨hpne, hpn⟩ := hch prev hprev
        obtain ⟨htne, htn⟩ := hch tail htail
        obtain ⟨hstrip, hnorm⟩ := strip_merge_eq prev tail hpne hpn htne htn
        by_cases htiny : tail.length ≤ max 6 (w / 2)
        · rw [if_pos htiny]
          by_cases hfits : wrappedLineCount (pyStrip (prev ++ ' ' :: tail)) w ≤ ml
          · rw [if_pos hfits]
            have hres : (pyStrip (prev ++ ' ' :: tail) :: restRev).reverse =
                restRev.reverse ++ [prev ++ ' ' :: tail] := by
              rw [hstrip]
              simp
            rw [hres]
            have hmerged_ne : prev ++ ' ' :: tail ≠ [] := by simp
            have hjoin_eq : joinSp (restRev.reverse ++ [prev ++ ' ' :: tail]) =
                joinSp (restRev.reverse ++ [prev, tail]) := by
              by_cases hrr : restRev.reverse = []
              · rw [hrr]
                simp only [List.nil_append]
                rfl
              · rw [joinSp_append _ _ hrr (by simp),
                  joinSp_append _ _ hrr (by simp)]
                rfl
            refine ⟨by rw [hjoin_eq, ← hchunks_eq], ?_, ?_, ?_⟩
            · constructor
              · intro h
                exact absurd h (by simp)
              · intro h
                rw [hchunks_eq] at h
                simp at h
            · intro c hc
              rcases List.mem_append.1 hc with h | h
              · refine hch c ?_
                rw [hchunks_eq]
                exact List.mem_append.2 (Or.inl h)
              · rw [List.mem_singleton.1 h]
                exact ⟨hmerged_ne, hnorm⟩
            · intro hwlc c hc
              rcases List.mem_append.1 hc with h | h
              · refine hwlc c ?_
                rw [hchunks_eq]
                exact List.mem_append.2 (Or.inl h)
              · rw [List.mem_singleton.1 h, ← hstrip]
                exact hfits
          · rw [if_neg hfits]
            exact ⟨rfl, Iff.rfl, hch, fun h => h⟩
        · rw [if_neg htiny]
          exact ⟨rfl, Iff.rfl, hch, fun h => h⟩

/-- Combined specification of `SubtitlePolicy.chunk`: the chunks join back to
the normalized input, the result is empty exactly when the normalized input
is, and every chunk is nonempty, normalized and fits the line budget. -/
theorem chunk_spec (p : SubtitlePolicy) (text : List Char) :
    joinSp (chunk p text) = normalize text ∧
    (chunk p text = [] ↔ normalize text = []) ∧
    ∀ c ∈ chunk p text,
      c ≠ [] ∧ normalize c = c ∧ wrappedLineCount c p.wrap_chars ≤ p.max_lines := by
  rw [chunk]
  by_cases h0 : normalize text = []
  · rw [if_pos h0]
    exact ⟨by rw [h0]; rfl, by simp [h0], by simp⟩
  · rw [if_neg h0]
    obtain ⟨hjoin, hparts⟩ :=
      sentSplitRe_spec (normalize text) (normalize_idem text) h0
    have hfilter : (sentSplitRe (normalize text)).filter (fun q => !q.isEmpty) =
        sentSplitRe (normalize text) := by
      rw [List.filter_eq_self]
      intro q hq
      simp [(hparts q hq).1]
    rw [hfilter]
    have hf_ne : ∀ q ∈ sentSplitRe (normalize text),
        (if wrappedLineCount q p.wrap_chars ≤ p.max_lines then [q]
          else autosplitChunk p.wrap_chars p.max_lines p.max_lines_pos q) ≠ [] := by
      intro q hq
      by_cases hg : wrappedLineCount q p.wrap_chars ≤ p.max_lines
      · rw [if_pos hg]; simp
      · rw [if_neg hg]
        intro hcon
        have hs := (autosplitChunk_spec p.wrap_chars p.max_lines p.max_lines_pos
          q.length q (le_refl _)).1
        rw [hcon] at hs
        have : ([] : List Char) = q := by
          rw [show joinSp [] = ([] : List Char) from rfl] at hs
          rw [hs, (hparts q hq).2]
        exact (hparts q hq).1 this.symm
    have hf_join : ∀ q ∈ sentSplitRe (normalize text),
        joinSp (if wrappedLineCount q p.wrap_chars ≤ p.max_lines then [q]
          else autosplitChunk p.wrap_chars p.max_lines p.max_lines_pos q) = q := by
      intro q hq
      by_cases hg : wrappedLineCount q p.wrap_chars ≤ p.max_lines
      · rw [if_pos hg]; rfl
      · rw [if_neg hg]
        rw [(autosplitChunk_spec p.wrap_chars p.max_lines p.max_lines_pos
          q.length q (le_refl _)).1]
        exact (hparts q hq).2
    have hCH_elems : ∀ c ∈ (sentSplitRe (normalize text)).flatMap
        (fun q => if wrappedLineCount q p.wrap_chars ≤ p.max_lines then [q]
          else autosplitChunk p.wrap_chars p.max_lines p.max_lines_pos q),
        c ≠ [] ∧ normalize c = c ∧
          wrappedLineCount c p.wrap_chars ≤ p.max_lines := by
      intro c hc
      obtain ⟨q, hq, hcf⟩ := List.mem_flatMap.1 hc
      by_cases hg : wrappedLineCount q p.wrap_chars ≤ p.max_lines
      · rw [if_pos hg] at hcf
        rw [List.mem_singleton.1 hcf]
        exact ⟨(hparts q hq).1, (hparts q hq).2, hg⟩
      · rw [if_neg hg] at hcf
        have hs := (autosplitChunk_spec p.wrap_chars p.max_lines p.max_lines_pos
          q.length q (le_refl _)).2 c hcf
        exact ⟨hs.1, hs.2.1, hs.2.2⟩
    have hCH_join : joinSp ((sentSplitRe (normalize text)).flatMap
        (fun q => if wrappedLineCount q p.wrap_chars ≤ p.max_lines then [q]
          else autosplitChunk p.wrap_chars p.max_lines p.max_lines_pos q)) =
        normalize text := by
      rw [joinSp_flatMap _ _ hf_ne hf_join, hjoin]
    have hCH_ne : (sentSplitRe (normalize text)).flatMap
        (fun q => if wrappedLineCount q p.wrap_chars ≤ p.max_lines then [q]
          else autosplitChunk p.wrap_chars p.max_lines p.max_lines_pos q) ≠ [] :=
      flatMap_ne_nil _ _ (sentSplitAux_ne_nil (normalize text) false []) hf_ne
    obtain ⟨hMGjoin, hMGiff, hMGelems, hMGwlc⟩ :=
      mergeTinyTail_spec ((sentSplitRe (normalize text)).flatMap
        (fun q => if wrappedLineCount q p.wrap_chars ≤ p.max_lines then [q]
          else autosplitChunk p.wrap_chars p.max_lines p.max_lines_pos q))
        p.wrap_chars p.max_lines (fun c hc => ⟨(hCH_elems c hc).1, (hCH_elems c hc).2.1⟩)
    refine ⟨by rw [hMGjoin, hCH_join], ?_, ?_⟩
    · exact ⟨fun h => absurd (hMGiff.1 h) hCH_ne, fun h => absurd h h0⟩
    · intro c hc
      refine ⟨(hMGelems c hc).1, (hMGelems c hc).2, ?_⟩
      exact hMGwlc (fun v hv => (hCH_elems v hv).2.2) c hc


/-! ### Orchestra -/

/-! ### Orchestra: text helpers, duration helpers and the say trace -/

def subWSAux : Bool → List Char → List Char
  | _, [] => []
  | inRun, c :: t =>
    if isWS c then
      if inRun then subWSAux true t else ' ' :: subWSAux true t
    else c :: subWSAux false t

def subWS (l : List Char) : List Char := subWSAux false l

def normalizeWs (l : List Char) : List Char := pyStrip (subWS l)

def sentPuncts : List Char := ['.', '!', '?', ';', ':']

def splitSentAux : List Char → List Char → List (List Char)
  | acc, [] => if acc = [] then [] else [pyStrip acc.reverse]
  | acc, c :: t =>
    if decide (c ∈ sentPuncts) && (t.isEmpty || isWS (t.headD 'x')) then
      pyStrip (c :: acc).reverse :: splitSentAux [] t
    else splitSentAux (c :: acc) t

def mergeShortAux : List (List Char) → List (List Char) → List (List Char)
  | merged, [] => merged.reverse
  | [], s :: rest => mergeShortAux [s] rest
  | m :: ms, s :: rest =>
    if s.length < 12 then mergeShortAux (pyStrip (m ++ ' ' :: s) :: ms) rest
    else mergeShortAux (s :: m :: ms) rest

def splitSentences (text : List Char) : List (List Char) :=
  let text := normalizeWs text
  if text = [] then []
  else (mergeShortAux [] (splitSentAux [] text)).filter (fun p => !p.isEmpty)

def swlGo (maxLen : ℕ) : List (List Char) → ℕ → List (List Char) → List (List Char)
  | cur, _, [] => if cur = [] then [] else [joinSp cur.reverse]
  | cur, curLen, w :: ws =>
    let extra := if cur = [] then 0 else 1
    if curLen + w.length + extra ≤ maxLen then
      swlGo maxLen (w :: cur) (curLen + w.length + extra) ws
    else joinSp cur.reverse :: swlGo maxLen [w] w.length ws

def softWrapLine (line : List Char) (maxLen : ℕ) : List (List Char) :=
  swlGo maxLen [] 0 (pySplit line)

def chunkByLength (text : List Char) (maxChars : ℕ) : List (List Char) :=
  swlGo maxChars [] 0 (pySplit text)

def splitlinesAux : List Char → List Char → List (List Char)
  | acc, [] => if acc = [] then [] else [acc.reverse]
  | acc, '\r' :: '\n' :: t => acc.reverse :: splitlinesAux [] t
  | acc, c :: t =>
    if c = '\n' ∨ c = '\r' ∨ c = '\x0b' ∨ c = '\x0c' then
      acc.reverse :: splitlinesAux [] t
    else splitlinesAux (c :: acc) t

def splitlines (l : List Char) : List (List Char) := splitlinesAux [] l

def joinNl : List (List Char) → List Char
  | [] => []
  | [p] => p
  | p :: ps => p ++ '\n' :: joinNl ps

def autoWrapMultiline (text : List Char) (maxLen : ℕ) : List Char :=
  if maxLen = 0 then text
  else if '\n' ∈ text then
    joinNl ((splitlines text).map (fun ln => joinSp (softWrapLine (pyStrip ln) maxLen)))
  else
    let parts := match splitSentences text with
      | [] => [text]
      | ps => ps
    joinNl (parts.flatMap (fun p => softWrapLine p maxLen))

def proportionalDurations (tokens : List ℕ) (total : ℚ) : List ℚ :=
  let total_tokens : ℕ := max 1 tokens.sum
  let raw := tokens.map (fun n => total * (max 1 n : ℕ) / (total_tokens : ℚ))
  let clipped := raw.map (fun d => max (1/100) d)
  let scale := total / max (1/100) clipped.sum
  clipped.map (fun d => d * scale)

structure OrchestraCfg where
  subtitles : Bool
  render_on_video : Bool
  max_chars_per_line : ℕ
  smart_split : Bool
  max_sentence_chars : ℕ
  global_caption_offset : ℚ
  estimate_if_silent : Bool
  words_per_sec : ℚ
  min_chunk_dur : ℚ
  max_chunk_dur : ℚ

def defaultOrchestraCfg : OrchestraCfg :=
  ⟨true, true, 36, true, 80, 0, true, 5/2, 3/5, 6⟩

def estimateDurations (cfg : OrchestraCfg) (chunks : List (List Char)) : List ℚ :=
  if chunks = [] then []
  else
    let wps := max (1/10) cfg.words_per_sec
    chunks.map (fun c =>
      max cfg.min_chunk_dur (min cfg.max_chunk_dur
        ((max 1 (pySplit c).length : ℕ) / wps)))

def chunkAndWrap (cfg : OrchestraCfg) (text : List Char) :
    List (List Char) × List (List Char) × List ℕ :=
  let sentences := match splitSentences text with
    | [] => [text]
    | ps => ps
  let chunks := sentences.flatMap (fun s =>
    if s.length ≤ cfg.max_sentence_chars then [s]
    else chunkByLength s cfg.max_sentence_chars)
  (chunks, chunks.map (fun c => autoWrapMultiline c cfg.max_chars_per_line),
   chunks.map (fun c => max 1 (pySplit c).length))

inductive SayEvent where
  | ttsInvoke (text : List Char)
  | scheduleOverlay (chunks : List (List Char)) (durs : List ℚ) (start : ℚ)
  | sceneWait (d : ℚ)
deriving DecidableEq

def isSchedule : SayEvent → Bool
  | .scheduleOverlay _ _ _ => true
  | _ => false

def scheduleOverlayEvents (cfg : OrchestraCfg) (wrapped : List (List Char))
    (durs : List ℚ) (start : ℚ) : List SayEvent :=
  if (cfg.subtitles && cfg.render_on_video) && (!wrapped.isEmpty) && (!durs.isEmpty)
  then [SayEvent.scheduleOverlay wrapped durs (start + cfg.global_caption_offset)]
  else []

def say (cfg : OrchestraCfg) (now : ℚ) (text : List Char) (ttsDur : ℚ)
    (wait : Bool) (add_subtitle : Option Bool) : List SayEvent × ℚ :=
  let text := normalizeWs text
  if text = [] then ([], 0)
  else
    let start_time := now
    let dur := ttsDur
    let do_caption := match add_subtitle with
      | none => cfg.subtitles
      | some b => b
    let captionEvents :=
      if do_caption then
        if cfg.smart_split then
          let cw := chunkAndWrap cfg text
          let wrapped := cw.2.1
          let token_counts := cw.2.2
          let chunk_durs :=
            if 1/1000 < dur then proportionalDurations token_counts dur
            else if cfg.estimate_if_silent then estimateDurations cfg wrapped
            else List.replicate wrapped.length 0
          scheduleOverlayEvents cfg wrapped chunk_durs start_time
        else
          let wrapped := autoWrapMultiline text cfg.max_chars_per_line
          let total :=
            if 1/1000 < dur then dur
            else if cfg.estimate_if_silent then
              (estimateDurations cfg [wrapped]).headD 0
            else 0
          scheduleOverlayEvents cfg [wrapped] [total] start_time
      else []
    let waitEvents :=
      if wait = true ∧ 0 < dur then [SayEvent.sceneWait dur] else []
    (SayEvent.ttsInvoke text :: (captionEvents ++ waitEvents), dur)

theorem countP_scheduleOverlayEvents (cfg : OrchestraCfg)
    (w : List (List Char)) (d : List ℚ) (s : ℚ) :
    (scheduleOverlayEvents cfg w d s).countP isSchedule ≤ 1 := by
  rw [scheduleOverlayEvents]
  split <;> simp [isSchedule]

theorem say_trace_shape (cfg : OrchestraCfg) (now : ℚ) (text : List Char)
    (ttsDur : ℚ) (wait : Bool) (sub : Option Bool) :
    (say cfg now text ttsDur wait sub).1 = [] ∨
    ∃ capE waitE, (say cfg now text ttsDur wait sub).1 =
        SayEvent.ttsInvoke (normalizeWs text) :: (capE ++ waitE) ∧
      capE.countP isSchedule ≤ 1 ∧ waitE.countP isSchedule = 0 := by
  simp only [say]
  by_cases h : normalizeWs text = []
  · rw [if_pos h]
    exact Or.inl rfl
  · rw [if_neg h]
    refine Or.inr ⟨_, _, rfl, ?_, ?_⟩
    · split
      · split
        · exact countP_scheduleOverlayEvents _ _ _ _
        · exact countP_scheduleOverlayEvents _ _ _ _
      · simp
    · split <;> simp [isSchedule]
end Cosmic

/-! ## Claim theorems: allocator -/

open Cosmic

/-- Claim C1: the claim states that every entry of `_alloc(total, parts)` is at
least the configured floor `0.12`, in particular at `total = 0.05`,
`parts = 5`.  The code violates this: the rescale factor
`total / (raw * parts)` exactly cancels the `max(0.12, ...)` clamp, so the
call returns five entries equal to `0.01`, strictly below the floor that the
inline comment of the source (`clamp so nothing is too tiny`) and the
specification both demand. -/
theorem alloc_floor_violated_at_005_5 :
    alloc (5 / 100) 5 = List.replicate 5 (1 / 100) ∧ ¬ ((12 / 100 : ℚ) ≤ 1 / 100) := by
  constructor
  · norm_num [alloc]
    decide
  · norm_num

/-! ## Claim theorems: durations -/

/-- Claim C3: for every chunk list of length 1 to 20 and every total duration
in the interval from one half to thirty seconds, the sum of
`SubtitlePolicy.durations(chunks, total_duration)` equals the total within an
absolute tolerance of `1/100`, under exact rational arithmetic.  Proven for
every policy whose configured `min_duration` is at least `3/5` (the default
policy has `min_duration = 1.2`). -/
theorem durations_sum_fidelity (p : SubtitlePolicy) (chunks : List (List Char))
    (total : ℚ) (hmin : 3 / 5 ≤ p.min_duration)
    (h1 : 1 ≤ chunks.length) (h2 : chunks.length ≤ 20)
    (hlo : 1 / 2 ≤ total) (hhi : total ≤ 30) :
    |(durations p chunks total).sum - total| ≤ 1 / 100 := by
  have hne : chunks ≠ [] := by rintro rfl; simp at h1
  have hpos : (0 : ℚ) < total := by linarith
  have hmaxd : (3 / 5 : ℚ) ≤ p.max_duration := le_trans hmin p.min_le_max
  have hminr : min (6 / 10 : ℚ) p.min_duration = 6 / 10 := min_eq_left (by linarith)
  have hlow2 : ∀ (l : List ℚ),
      ∀ x ∈ l.map (fun x => max (min (6 / 10) p.min_duration) x), 3 / 5 ≤ x := by
    intro l x hx
    obtain ⟨y, _, rfl⟩ := List.mem_map.1 hx
    rw [hminr]
    exact le_trans (by norm_num) (le_max_left _ _)
  simp only [durations, if_neg hne, if_pos hpos]
  set L : List ℚ := chunks.map (fun c => (chunkLen c : ℚ)) with hL
  set D0 : List ℚ := (L.map (fun x => x / L.sum)).map (fun w => total * w) with hD0
  set D1 : List ℚ := D0.map (fun x => min p.max_duration x) with hD1
  set D2 : List ℚ := D1.map (fun x => max (min (6 / 10) p.min_duration) x) with hD2
  have hD2ne : D2 ≠ [] := by simp [hD2, hD1, hD0, hL, hne]
  have hD2low : ∀ x ∈ D2, 3 / 5 ≤ x := by rw [hD2]; exact hlow2 D1
  have hs1 : (1 : ℚ) / 1000000 < D2.sum :=
    lt_of_lt_of_le (by norm_num)
      (le_sum_of_forall_le' D2 (3 / 5) (by norm_num) hD2low hD2ne)
  rw [if_pos hs1]
  set D3 : List ℚ := D2.map (fun x => x * (total / D2.sum)) with hD3
  set D4 : List ℚ := D3.map (fun x => min p.max_duration x) with hD4
  have hs2 : (1 : ℚ) / 2 ≤ D4.sum := by
    rw [hD4, hD3]
    exact durations_recap_sum_lower total p.max_duration D2 hD2ne hD2low hlo hmaxd
  exact durations_final_stage total D4 hs2 hlo

/-- Witness for C3 at the concrete input `chunks = ["Hi"]`, `total = 2`. -/
theorem durations_sum_fidelity_witness :
    (3 / 5 ≤ defaultPolicy.min_duration ∧
      1 ≤ ([['H', 'i']] : List (List Char)).length ∧
      ([['H', 'i']] : List (List Char)).length ≤ 20 ∧
      (1 / 2 : ℚ) ≤ 2 ∧ (2 : ℚ) ≤ 30) ∧
    |(durations defaultPolicy [['H', 'i']] 2).sum - 2| ≤ 1 / 100 :=
  ⟨⟨by norm_num [defaultPolicy, mkPolicy], by norm_num, by norm_num, by norm_num,
      by norm_num⟩,
    durations_sum_fidelity defaultPolicy [['H', 'i']] 2
      (by norm_num [defaultPolicy, mkPolicy]) (by norm_num) (by norm_num)
      (by norm_num) (by norm_num)⟩

/-- Claim C4 counterexample: on `chunks = ["Hello"]` with
`total_duration = 0.5`, the known-total branch of the default policy returns
`[0.5]`, and `0.5` is strictly below `min_duration = 1.2` (indeed below the
soft floor `0.6` as well), so the returned value does not lie in
`[min_duration, max_duration]`. -/
theorem durations_clamp_violated_at_hello_half :
    durations defaultPolicy [['H', 'e', 'l', 'l', 'o']] (1 / 2) = [1 / 2] ∧
    (1 / 2 : ℚ) < defaultPolicy.min_duration := by
  constructor
  · norm_num [durations, chunkLen, defaultPolicy, mkPolicy]
  · norm_num [defaultPolicy, mkPolicy]

/-- Claim C4 (amended): in the estimation branch (`total_duration <= 0`) every
value returned by `SubtitlePolicy.durations` lies in
`[min_duration, max_duration]`.  In the known-total branch the final
renormalisation can leave values outside this interval (see the
counterexample), so the clamp invariant only holds for estimation. -/
theorem durations_estimation_clamped (p : SubtitlePolicy) (chunks : List (List Char))
    (total : ℚ) (htot : total ≤ 0) :
    ∀ d ∈ durations p chunks total, p.min_duration ≤ d ∧ d ≤ p.max_duration := by
  intro d hd
  have hnpos : ¬ (0 : ℚ) < total := not_lt.2 htot
  by_cases hne : chunks = []
  · simp [durations, hne] at hd
  · simp only [durations, if_neg hne, if_neg hnpos] at hd
    obtain ⟨y, _, rfl⟩ := List.mem_map.1 hd
    refine ⟨le_max_left _ _, ?_⟩
    exact max_le p.min_le_max (le_trans (min_le_left _ _) le_rfl)

/-- Witness for C4 (amended) at `chunks = ["Hi"]`, `total = 0`: the estimated
duration `6/5` is clamped into the default interval `[1.2, 3.8]`. -/
theorem durations_estimation_clamped_witness :
    defaultPolicy.min_duration ≤ 6 / 5 ∧ (6 / 5 : ℚ) ≤ defaultPolicy.max_duration :=
  durations_estimation_clamped defaultPolicy [['H', 'i']] 0 (by norm_num) (6 / 5)
    (by norm_num [durations, chunkLen, defaultPolicy, mkPolicy])

/-! ## Claim theorems: overlay -/

/-- Claim C10: calling `schedule_chunks` with an empty chunks sequence never
raises, for every durations argument (matching or not, negative or not): the
validations are skipped, the schedule is cleared (`schedule = None`, current
index `-1`, caption node emptied), everything else is untouched, and the call
returns. -/
theorem schedule_chunks_empty_clears (cfg : OverlayCfg) (st : OverlayState)
    (durationsIn : List ℚ) (start_time offset pace lead : ℚ) :
    schedule_chunks cfg st [] durationsIn start_time offset pace lead =
      ({ st with schedule := none, current_idx := -1, caption := none }, none) := rfl

/-- Claim C8 counterexample: `schedule_chunks` called with empty `chunks` and
the mismatched, negative durations list `[-1]` does not raise (the claim says
every mismatched or negative call raises): it returns normally and clears the
schedule. -/
theorem schedule_chunks_mismatch_no_raise :
    (schedule_chunks defaultOverlayCfg initOverlayState [] [-1] 0 0 (92 / 100)
        (14 / 100)).2 = none ∧
    ([] : List (List Char)).length ≠ ([(-1 : ℚ)] : List ℚ).length ∧
    ((-1 : ℚ) < 0) := by
  refine ⟨rfl, by simp, by norm_num⟩

/-- Claim C8 (amended): for a nonempty chunks sequence, a call to
`schedule_chunks` with mismatched list lengths or with some negative duration
raises a `ValueError` immediately and leaves the overlay state unchanged (the
empty-chunks case instead clears the schedule and returns, see C10). -/
theorem schedule_chunks_fail_fast (cfg : OverlayCfg) (st : OverlayState)
    (chunks : List (List Char)) (durationsIn : List ℚ)
    (start_time offset pace lead : ℚ) (hne : chunks ≠ [])
    (hbad : chunks.length ≠ durationsIn.length ∨ ∃ d ∈ durationsIn, d < 0) :
    (schedule_chunks cfg st chunks durationsIn start_time offset pace lead).1 = st ∧
    (schedule_chunks cfg st chunks durationsIn start_time offset pace lead).2 ≠
      none := by
  rw [schedule_chunks, if_neg hne]
  by_cases hlen : chunks.length = durationsIn.length
  · rcases hbad with hbad | hbad
    · exact absurd hlen hbad
    · rw [if_neg (by simpa using hlen)]
      have hany : durationsIn.any (fun d => decide (d < 0)) = true := by
        rcases hbad with ⟨d, hd, hdneg⟩
        exact List.any_eq_true.2 ⟨d, hd, by simpa using hdneg⟩
      rw [if_pos hany]
      exact ⟨rfl, by simp⟩
  · rw [if_pos hlen]
    exact ⟨rfl, by simp⟩

/-- Witness for C8 (amended): one chunk against an empty durations list. -/
theorem schedule_chunks_fail_fast_witness :
    (schedule_chunks defaultOverlayCfg initOverlayState [['A']] [] 0 0 (92 / 100)
        (14 / 100)).1 = initOverlayState ∧
    (schedule_chunks defaultOverlayCfg initOverlayState [['A']] [] 0 0 (92 / 100)
        (14 / 100)).2 ≠ none :=
  schedule_chunks_fail_fast defaultOverlayCfg initOverlayState [['A']] [] 0 0
    (92 / 100) (14 / 100) (by simp) (Or.inl (by simp))

/-- Claim C9: the per-tick handler is idempotent at a fixed timestamp: if one
tick at scene time `now` succeeds and produces state `st2`, a second tick at
the same time leaves the displayed caption, the current index, the schedule
and every other component of `st2` exactly unchanged. -/
theorem update_idempotent (st : OverlayState) (now : ℚ) (st2 : OverlayState)
    (h : update st now = (st2, none)) : update st2 now = (st2, none) := by
  cases hsch : st.schedule with
  | none =>
    simp only [update, hsch] at h
    injection h with h1 _
    subst h1
    simp only [update, hsch]
  | some sch =>
    simp only [update, hsch] at h
    by_cases ht : now - sch.start_time < 0
    · rw [if_pos ht] at h
      injection h with h1 _
      subst h1
      simp only [update, hsch]
      rw [if_pos ht]
    · rw [if_neg ht] at h
      cases hlast : sch.cum.getLast? with
      | none =>
        simp only [hlast] at h
        exact absurd (congrArg Prod.snd h) (by simp)
      | some last =>
        simp only [hlast] at h
        by_cases hle : last ≤ now - sch.start_time
        · rw [if_pos hle] at h
          injection h with h1 _
          subst h1
          have hstop : (stop st).schedule = none := by
            rw [stop]
            split <;> rfl
          simp only [update, hstop]
        · rw [if_neg hle] at h
          cases hfind : findIdxGo sch.cum (now - sch.start_time) sch.chunks.length 0 with
          | none =>
            simp only [hfind] at h
            exact absurd (congrArg Prod.snd h) (by simp)
          | some idx =>
            simp only [hfind] at h
            by_cases hidx : idx ≠ st.current_idx
            · rw [if_pos hidx] at h
              by_cases hbound : 0 ≤ idx ∧ idx < (sch.chunks.length : ℤ)
              · rw [if_pos hbound] at h
                injection h with h1 _
                subst h1
                simp only [update]
                simp only [if_neg ht, hlast, if_neg hle, hfind]
                rw [if_neg (by simp)]
              · rw [if_neg hbound] at h
                injection h with h1 _
                subst h1
                simp only [update]
                simp only [if_neg ht, hlast, if_neg hle, hfind]
                rw [if_neg (by simp)]
            · rw [if_neg hidx] at h
              injection h with h1 _
              subst h1
              simp only [update, hsch]
              simp only [if_neg ht, hlast, if_neg hle, hfind]
              rw [if_neg hidx]

/-- Witness for C9: a concrete schedule with one chunk ticked at time `1`. -/
theorem update_idempotent_witness :
    update
      { current_idx := 0,
        schedule := some { chunks := [['A']], cum := [0, 2], start_time := 0 },
        has_updater := true, caption := some ['A'], in_scene := true } 1 =
    ({ current_idx := 0,
       schedule := some { chunks := [['A']], cum := [0, 2], start_time := 0 },
       has_updater := true, caption := some ['A'], in_scene := true }, none) :=
  update_idempotent
    { current_idx := -1,
      schedule := some { chunks := [['A']], cum := [0, 2], start_time := 0 },
      has_updater := true, caption := none, in_scene := true } 1
    { current_idx := 0,
      schedule := some { chunks := [['A']], cum := [0, 2], start_time := 0 },
      has_updater := true, caption := some ['A'], in_scene := true }
    (by norm_num [update, findIdxGo])


/-- Claim C5: every chunk produced by `SubtitlePolicy.chunk` fits the line
budget: the greedy word-wrap line counter applied to the chunk at width
`wrap_chars` yields at most `max_lines` lines, and this persists through the
tiny-tail merge, which only merges when the merged text still fits. -/
theorem chunk_line_budget (p : SubtitlePolicy) (text : List Char)
    (c : List Char) (hc : c ∈ chunk p text) :
    wrappedLineCount c p.wrap_chars ≤ p.max_lines :=
  ((chunk_spec p text).2.2 c hc).2.2

theorem chunk_line_budget_witness :
    ['H', 'i', '.'] ∈ chunk defaultPolicy ['H', 'i', '.'] ∧
    wrappedLineCount ['H', 'i', '.'] defaultPolicy.wrap_chars ≤
      defaultPolicy.max_lines :=
  ⟨by decide, chunk_line_budget defaultPolicy ['H', 'i', '.'] ['H', 'i', '.']
    (by decide)⟩

/-- Claim C6: for every input text, joining the chunks returned by
`SubtitlePolicy.chunk` with single spaces and collapsing whitespace equals the
whitespace-normalized input (no characters lost, duplicated or invented, also
under balanced-break splitting and the tiny-tail merge), and the chunk list is
non-empty iff the normalized input is non-empty. -/
theorem chunk_reconstruction (p : SubtitlePolicy) (text : List Char) :
    normalize (joinSp (chunk p text)) = normalize text ∧
    (chunk p text ≠ [] ↔ normalize text ≠ []) := by
  obtain ⟨hj, hiff, _⟩ := chunk_spec p text
  exact ⟨by rw [hj, normalize_idem], not_iff_not.2 hiff⟩

/-- Claim C7: the chunking recursion terminates on every input, formalized by
the facts that justify totality of `autosplitChunk`: a string whose stripped
form has length at most 1 returns immediately from `balancedBreak`; for a
normalized multi-word string both balanced-break parts are strictly shorter
than the input; and `autosplitChunk` is a total function (its output joins
back to the normalized input on every argument). -/
theorem chunk_terminates :
    (∀ s target, (pyStrip s).length ≤ 1 →
      balancedBreak s target = (pyStrip s, [])) ∧
    (∀ s target, normalize s = s → 2 ≤ (pySplit s).length →
      (balancedBreak s target).1.length < s.length ∧
      (balancedBreak s target).2.length < s.length) ∧
    ∀ width maxLines h t,
      joinSp (autosplitChunk width maxLines h t) = normalize t := by
  refine ⟨?_, ?_, ?_⟩
  · intro s target h
    simp only [balancedBreak]
    rw [if_pos h]
  · exact fun s target hn h2 => balancedBreak_shorter s target hn h2
  · intro width maxLines h t
    exact (autosplitChunk_spec width maxLines h t.length t (le_refl _)).1

theorem chunk_terminates_witness :
    balancedBreak ['a'] 5 = (pyStrip ['a'], []) ∧
    (balancedBreak ['a', 'b', ' ', 'c'] 2).1.length <
      (['a', 'b', ' ', 'c'] : List Char).length ∧
    joinSp (autosplitChunk 38 2 (Nat.succ_pos 1) ['a', 'b', ' ', 'c']) =
      normalize ['a', 'b', ' ', 'c'] :=
  ⟨chunk_terminates.1 ['a'] 5 (by decide),
   (chunk_terminates.2.1 ['a', 'b', ' ', 'c'] 2 (by decide) (by decide)).1,
   chunk_terminates.2.2 38 2 (Nat.succ_pos 1) ['a', 'b', ' ', 'c']⟩

/-- Claim C2 counterexample: for `say` on the text `"Hello"` with a known TTS
duration of `2`, the event trace is exactly `[tts_invoke, schedule_overlay,
scene_wait]`: the overlay is scheduled exactly once, after the TTS primitive
is invoked and with durations computed from the true duration `2` - there is
no provisional `duration=0.0` scheduling pass before TTS and no second retime
pass (SubtitleScheduler.retime has no callers). -/
theorem say_schedules_once_not_twice :
    (say defaultOrchestraCfg 0 ['H', 'e', 'l', 'l', 'o'] 2 true none).1 =
      [SayEvent.ttsInvoke ['H', 'e', 'l', 'l', 'o'],
       SayEvent.scheduleOverlay [['H', 'e', 'l', 'l', 'o']] [2] 0,
       SayEvent.sceneWait 2] := by
  have hcw : chunkAndWrap defaultOrchestraCfg ['H', 'e', 'l', 'l', 'o'] =
      ([['H', 'e', 'l', 'l', 'o']], [['H', 'e', 'l', 'l', 'o']], [1]) := by decide
  have hn : normalizeWs ['H', 'e', 'l', 'l', 'o'] = ['H', 'e', 'l', 'l', 'o'] := by decide
  have hp : proportionalDurations [1] 2 = [2] := by
    norm_num [proportionalDurations]
  simp only [say, hn, hcw]
  norm_num [scheduleOverlayEvents, defaultOrchestraCfg, hp]
  rw [if_neg (by decide : ¬(['H', 'e', 'l', 'l', 'o'] : List Char) = [])]

/-- Claim C2 (amended): `Orchestra.say` schedules the subtitle overlay at most
once per narration, and the schedule happens strictly after the TTS primitive
is invoked: every nonempty trace starts with the `tts_invoke` event for the
normalized text, and the number of `schedule_overlay` events in the trace is
at most one (computed from the actual tracked duration, or from the
words-per-second estimate only when the tracked duration is ~0). -/
theorem say_single_schedule_after_tts (cfg : OrchestraCfg) (now : ℚ)
    (text : List Char) (ttsDur : ℚ) (wait : Bool) (sub : Option Bool) :
    (say cfg now text ttsDur wait sub).1.countP isSchedule ≤ 1 ∧
    ((say cfg now text ttsDur wait sub).1 = [] ∨
      (say cfg now text ttsDur wait sub).1.head? =
        some (SayEvent.ttsInvoke (normalizeWs text))) := by
  rcases say_trace_shape cfg now text ttsDur wait sub with h | ⟨capE, waitE, heq, hc, hw⟩
  · rw [h]
    exact ⟨by simp, Or.inl rfl⟩
  · rw [heq]
    refine ⟨?_, Or.inr rfl⟩
    simp only [List.countP_cons, List.countP_append, hw, isSchedule,
      Bool.false_eq_true, if_false]
    omega
